import Mathlib

/-!
Verification of the AI Download Organizer file-arrival pipeline.

This file gives a shallow embedding of the core of `main.py`: extension-based
classification (`FILE_TYPES`, `get_category_for_extension`), settings
persistence (`load_settings`), the stability check (`is_file_complete`),
keyword extraction (`extract_keywords`), collision-safe placement
(`rename_and_sort_file`), the per-arrival coordinator (`process_new_file`)
and the pending-queue sweep (`check_pending_downloads`).

Modelling conventions:
  - Paths and text are Lean `String`s (logically lists of `Char`).
  - The filesystem is a list of existing file paths; `os.path.exists` is list
    membership; `shutil.move` removes the source and adds the destination
    (or leaves the filesystem unchanged when the move raises).
  - Effects whose outcome depends on the outside world (per-call stability
    result, PDF/code text extraction, the OpenAI response, move success) are
    oracles packaged in an `Env`; a `none` service response stands for any
    exception raised by the OpenAI call.
  - Python `str.strip`/`str.lower` are modelled on the ASCII range.
  - Timestamps are naturals; `time.time()` is passed in as `now`.
  - The settings file on disk is `Disk`: absent, unreadable/malformed, or a
    parsed record; `load_settings` returns the record and the new disk state.
  - Lock acquisition, map operations, stability checks and the network call
    are additionally recorded in an event trace (`Ev`) so that lock-scoping
    properties can be stated.
-/

namespace DlOrg

/-- ASCII whitespace, modelling the characters stripped by Python `str.strip()`. -/
def pyIsSpace (c : Char) : Bool :=
  c = ' ' || c = '\t' || c = '\n' || c = '\r' || c = '\x0b' || c = '\x0c'

/-- ASCII lower-casing of one character, modelling Python `str.lower()`. -/
def lowerChar : Char → Char
  | 'A' => 'a' | 'B' => 'b' | 'C' => 'c' | 'D' => 'd' | 'E' => 'e' | 'F' => 'f'
  | 'G' => 'g' | 'H' => 'h' | 'I' => 'i' | 'J' => 'j' | 'K' => 'k' | 'L' => 'l'
  | 'M' => 'm' | 'N' => 'n' | 'O' => 'o' | 'P' => 'p' | 'Q' => 'q' | 'R' => 'r'
  | 'S' => 's' | 'T' => 't' | 'U' => 'u' | 'V' => 'v' | 'W' => 'w' | 'X' => 'x'
  | 'Y' => 'y' | 'Z' => 'z'
  | c => c

def lowerList (l : List Char) : List Char := l.map lowerChar

/-- Python `s.lower()`. -/
def lowerS (s : String) : String := String.mk (lowerList s.data)

/-- Python `s.strip()`: drop leading then trailing whitespace. -/
def stripList (l : List Char) : List Char :=
  ((l.dropWhile pyIsSpace).reverse.dropWhile pyIsSpace).reverse

def stripS (s : String) : String := String.mk (stripList s.data)

def splitCommaAux : List Char → List Char → List (List Char)
  | [], cur => [cur.reverse]
  | c :: t, cur =>
    if c = ',' then cur.reverse :: splitCommaAux t [] else splitCommaAux t (c :: cur)

/-- Python `s.split(",")`. -/
def splitComma (l : List Char) : List (List Char) := splitCommaAux l []

def digitChar : Nat → Char
  | 0 => '0' | 1 => '1' | 2 => '2' | 3 => '3' | 4 => '4'
  | 5 => '5' | 6 => '6' | 7 => '7' | 8 => '8' | _ => '9'

def digitVal (c : Char) : Nat := c.toNat - 48

/-- Fuel-driven digit expansion; any fuel above the value gives the decimal digits
(`natStrLAux_irrel` below), so `natStrL` is a total model of `str(n)` that stays
structurally recursive and hence kernel-evaluable. -/
def natStrLAux : Nat → Nat → List Char
  | 0, _ => []
  | fuel + 1, n =>
    if n < 10 then [digitChar n]
    else natStrLAux fuel (n / 10) ++ [digitChar (n % 10)]

/-- Decimal rendering of a natural, as the f-string interpolation of `counter` does. -/
def natStrL (n : Nat) : List Char := natStrLAux (n + 1) n

def natStrS (n : Nat) : String := String.mk (natStrL n)

/-- Parse a decimal digit list back to a natural (used to prove `natStrL` injective). -/
def natValL (l : List Char) : Nat := l.foldl (fun a c => a * 10 + digitVal c) 0

/-- The extension table of `main.py` (`FILE_TYPES`), in source order. -/
def FILE_TYPES : List (String × List String) :=
  [ ("PDF", [".pdf"]),
    ("Images", [".jpg", ".jpeg", ".png", ".gif", ".bmp", ".tiff", ".webp"]),
    ("Archives", [".zip", ".rar", ".7z", ".tar", ".gz"]),
    ("Code", [".py", ".js", ".java", ".c", ".cpp", ".rb", ".go", ".html", ".css", ".php", ".swift"]),
    ("Spreadsheets", [".csv", ".xls", ".xlsx", ".tsv", ".ods"]),
    ("Disk Images", [".dmg", ".iso"]),
    ("Documents", [".doc", ".docx", ".odt", ".rtf", ".txt", ".md"]),
    ("Videos", [".mp4", ".mov", ".avi", ".mkv", ".wmv", ".flv", ".webm"]),
    ("Audio", [".mp3", ".wav", ".flac", ".aac", ".ogg", ".m4a"]),
    ("Presentations", [".ppt", ".pptx", ".key", ".odp"]),
    ("Executables", [".exe", ".app", ".sh", ".bat", ".msi"]) ]

/-- First-match scan of the table, as the `for` loop in `get_category_for_extension`. -/
def lookupCat : List (String × List String) → String → String
  | [], _ => "Other"
  | (category, extensions) :: rest, ext =>
    if lowerS ext ∈ extensions then category else lookupCat rest ext

/-- The function `get_category_for_extension` of `main.py` (lower-cases its argument itself). -/
def get_category_for_extension (ext : String) : String := lookupCat FILE_TYPES ext

/-- Part of the basename after the last slash, as `os.path.basename` on POSIX. -/
def basenameData (p : List Char) : List Char :=
  (p.reverse.takeWhile (fun c => c ≠ '/')).reverse

def basename (p : String) : String := String.mk (basenameData p.data)

/-- The extension (with leading dot) computed by `os.path.splitext`: the suffix of the
basename after its last dot, empty when the basename has no dot or only leading dots. -/
def splitextExtData (p : List Char) : List Char :=
  let b := basenameData p
  let r := b.reverse
  let afterRev := r.takeWhile (fun c => c ≠ '.')
  if afterRev.length = r.length then []
  else
    let beforeDot := (r.drop (afterRev.length + 1)).reverse
    if beforeDot.any (fun c => c ≠ '.') then '.' :: afterRev.reverse else []

/-- Python `os.path.splitext`, returning `(root, ext)`. -/
def splitext (p : String) : String × String :=
  let ext := splitextExtData p.data
  (String.mk (p.data.take (p.data.length - ext.length)), String.mk ext)

/-- The classification of a path in `process_new_file`:
`ext = os.path.splitext(file_path)[1].lower()` then `get_category_for_extension(ext)`. -/
def classify (p : String) : String :=
  get_category_for_extension (lowerS (splitext p).2)

/-- Settings snapshot (`settings.json` contents relevant to the pipeline). -/
structure Settings where
  rename_files : Bool
  organize_folders : Bool
  file_types : List (String × Bool)
deriving DecidableEq, Repr

/-- `DEFAULT_SETTINGS` of `main.py`: both toggles on, every table category enabled. -/
def DEFAULT_SETTINGS : Settings :=
  { rename_files := true
    organize_folders := true
    file_types := FILE_TYPES.map (fun e => (e.1, true)) }

/-- `settings.get("file_types", {}).get(category, True)`. -/
def getFileTypeEnabled (s : Settings) (category : String) : Bool :=
  (List.lookup category s.file_types).getD true

/-- State of the settings file on disk. -/
inductive Disk where
  | absent
  | malformed
  | valid (s : Settings)
deriving DecidableEq, Repr

/-- The function `load_settings` of `main.py`. Returns the settings handed to the
caller and the disk state afterwards: an absent file is rewritten with the defaults
(`save_settings(DEFAULT_SETTINGS)`); a malformed file raises inside `json.load`, the
exception is caught and the defaults are returned with the disk left untouched. -/
def load_settings : Disk → Settings × Disk
  | Disk.absent => (DEFAULT_SETTINGS, Disk.valid DEFAULT_SETTINGS)
  | Disk.malformed => (DEFAULT_SETTINGS, Disk.malformed)
  | Disk.valid s => (s, Disk.valid s)

/-- The function `extract_keywords` of `main.py`. The argument is the outcome of the
OpenAI call: `none` when the call raises (error/timeout, caught by the `except`),
`some content` for a returned message. The body mirrors
`[k.strip().lower() for k in content.strip().split(",") if k.strip()][:2]`. -/
def extract_keywords (resp : Option String) : List String :=
  match resp with
  | none => []
  | some content =>
    let keywords_text := stripS content
    (((splitComma keywords_text.data).filter (fun k => decide (stripList k ≠ []))).map
        (fun k => String.mk (lowerList (stripList k)))).take 2

def DOWNLOADS_FOLDER : String := "~/Downloads"

/-- `os.path.join` for the shapes occurring in `main.py` (no trailing slash on dirs). -/
def pathJoin (dir name : String) : String := dir ++ "/" ++ name

/-- The candidate destination tried at collision counter `k`:
`join(dir, base + ext)` at `k = 0`, `join(dir, base + "_k" + ext)` afterwards. -/
def candPath (dir base ext : String) (k : Nat) : String :=
  if k = 0 then pathJoin dir (base ++ ext)
  else pathJoin dir (base ++ "_" ++ natStrS k ++ ext)

/-- Fuel-driven scan for the first free candidate index, mirroring the
`while os.path.exists(new_file_path)` loop. Fuel `fs.length + 1` always suffices
because the candidates are pairwise distinct (proved below), so the fuelled scan
computes exactly the loop's result. -/
def findFreePath (fs : List String) (cand : Nat → String) : Nat → Nat → String
  | 0, k => cand k
  | fuel + 1, k => if cand k ∈ fs then findFreePath fs cand fuel (k + 1) else cand k

def resolvePath (fs : List String) (dir base ext : String) : String :=
  findFreePath fs (candPath dir base ext) (fs.length + 1) 0

/-- Per-call oracles for everything outside the program's own state. -/
structure Env where
  complete : String → Bool
  disk : Disk
  pdfText : String → String
  codeText : String → String
  service : String → Option String
  moveOk : String → String → Bool

/-- Outcome of `rename_and_sort_file`: destination chosen, filesystem afterwards,
and whether `shutil.move` succeeded. -/
structure MoveOut where
  dest : String
  fs : List String
  moved : Bool
deriving DecidableEq

/-- The function `rename_and_sort_file` of `main.py`. -/
def rename_and_sort_file (env : Env) (fs : List String) (file_path category : String)
    (keywords : List String) : MoveOut :=
  let current_settings := (load_settings env.disk).1
  let be := splitext (basename file_path)
  let new_base_name :=
    if current_settings.rename_files then
      if keywords ≠ [] then String.intercalate "_" keywords else be.1
    else be.1
  let target_folder :=
    if current_settings.organize_folders then pathJoin DOWNLOADS_FOLDER category
    else DOWNLOADS_FOLDER
  let new_file_path := resolvePath fs target_folder new_base_name be.2
  { dest := new_file_path
    fs := if env.moveOk file_path new_file_path then new_file_path :: fs.erase file_path else fs
    moved := env.moveOk file_path new_file_path }

/-- Events recorded while the coordinator runs: lock acquire/release, an operation
on the tracked-paths map, a (blocking) stability check on a path, the network call. -/
inductive Ev where
  | acq
  | rel
  | mapop
  | chk (p : String)
  | net
deriving DecidableEq, Repr

/-- Outcome of one category processor. -/
structure ProcOut where
  fs : List String
  attempt : Option String
  moved : Bool
  net : Bool
deriving DecidableEq, Repr

/-- Shared body of `process_pdf` and `process_code`: extract text, and only when it is
non-empty call the keyword service and place the file; an empty excerpt skips
placement entirely. -/
def process_with_keywords (env : Env) (fs : List String) (file_path category text : String) :
    ProcOut :=
  if text ≠ "" then
    let keywords := extract_keywords (env.service text)
    let m := rename_and_sort_file env fs file_path category keywords
    { fs := m.fs, attempt := some m.dest, moved := m.moved, net := true }
  else
    { fs := fs, attempt := none, moved := false, net := false }

/-- A processor that places with no keywords (`process_image` … `process_other`). -/
def process_plain (env : Env) (fs : List String) (file_path category : String) : ProcOut :=
  let m := rename_and_sort_file env fs file_path category []
  { fs := m.fs, attempt := some m.dest, moved := m.moved, net := false }

def process_pdf (env : Env) (fs : List String) (p : String) : ProcOut :=
  process_with_keywords env fs p "PDF" (env.pdfText p)

def process_code (env : Env) (fs : List String) (p : String) : ProcOut :=
  process_with_keywords env fs p "Code" (env.codeText p)

/-- The category dispatch chain of `process_new_file` (the `if/elif` ladder that
routes to `process_pdf`, `process_image`, ..., `process_other`). -/
def dispatchProcess (env : Env) (fs : List String) (file_path category : String) : ProcOut :=
  if category = "PDF" then process_pdf env fs file_path
  else if category = "Images" then process_plain env fs file_path "Images"
  else if category = "Archives" then process_plain env fs file_path "Archives"
  else if category = "Code" then process_code env fs file_path
  else if category = "Spreadsheets" then process_plain env fs file_path "Spreadsheets"
  else if category = "Disk Images" then process_plain env fs file_path "Disk Images"
  else if category = "Documents" then process_plain env fs file_path "Documents"
  else if category = "Videos" then process_plain env fs file_path "Videos"
  else if category = "Audio" then process_plain env fs file_path "Audio"
  else if category = "Presentations" then process_plain env fs file_path "Presentations"
  else if category = "Executables" then process_plain env fs file_path "Executables"
  else process_plain env fs file_path "Other"

/-- Mutable program state: existing files and the `downloading_files` map. -/
structure St where
  fs : List String
  pending : List (String × Nat)
deriving DecidableEq, Repr

/-- Python `dict` assignment `m[k] = v`: update in place, else append. -/
def setKey (m : List (String × Nat)) (k : String) (v : Nat) : List (String × Nat) :=
  if m.any (fun e => e.1 = k) then m.map (fun e => if e.1 = k then (k, v) else e)
  else m ++ [(k, v)]

/-- Python `del m[k]` combined with the preceding `if k in m` guard. -/
def eraseKey (m : List (String × Nat)) (k : String) : List (String × Nat) :=
  m.filter (fun e => decide (e.1 ≠ k))

def keysOf (m : List (String × Nat)) : List String := m.map (fun e => e.1)

/-- Outcome of `process_new_file`. -/
structure POut where
  st : St
  attempt : Option String
  moved : Bool
  trace : List Ev
deriving DecidableEq, Repr

/-- The function `process_new_file` of `main.py`: existence check, stability check
(queueing the path when unstable), removal from the queue, classification, the
settings gate, and dispatch to the per-category processor. -/
def process_new_file (env : Env) (st : St) (file_path : String) (now : Nat) : POut :=
  if file_path ∉ st.fs then
    { st := st, attempt := none, moved := false, trace := [] }
  else if env.complete file_path = false then
    { st := { fs := st.fs, pending := setKey st.pending file_path now }
      attempt := none, moved := false
      trace := [Ev.chk file_path, Ev.acq, Ev.mapop, Ev.rel] }
  else
    let pend := eraseKey st.pending file_path
    let category := classify file_path
    let settings := (load_settings env.disk).1
    if category ≠ "Other" ∧ getFileTypeEnabled settings category = false then
      { st := { fs := st.fs, pending := pend }, attempt := none, moved := false
        trace := [Ev.chk file_path, Ev.acq, Ev.mapop, Ev.rel] }
    else
      let r := dispatchProcess env st.fs file_path category
      { st := { fs := r.fs, pending := pend }, attempt := r.attempt, moved := r.moved
        trace := [Ev.chk file_path, Ev.acq, Ev.mapop, Ev.rel] ++
          (if r.net then [Ev.net] else []) }

/-- Repeated arrival events for the same path. -/
def arrivalIter (env : Env) (p : String) (now : Nat) : Nat → St → St
  | 0, st => st
  | k + 1, st => arrivalIter env p now k (process_new_file env st p now).st

/-- Outcome of one `check_pending_downloads` sweep. -/
structure SweepOut where
  st : St
  tested : List String
  processed : List String
  trace : List Ev
deriving DecidableEq, Repr

/-- Events of the locked loop body for one tracked entry: entries past the grace
period and still existing get a stability check, and a timestamp write when the
check fails. -/
def sweepEntryEvents (env : Env) (fs0 : List String) (now : Nat) (e : String × Nat) :
    List Ev :=
  if now - e.2 > 60 then
    if e.1 ∈ fs0 then
      Ev.chk e.1 :: (if env.complete e.1 = false then [Ev.mapop] else [])
    else []
  else []

/-- The `files_to_process` list of one sweep: old entries whose file exists and is
now stable, in map order. -/
def sweepProcessList (env : Env) (st : St) (now : Nat) : List String :=
  (st.pending.filter
    (fun e => decide (now - e.2 > 60 ∧ e.1 ∈ st.fs ∧ env.complete e.1 = true))).map
    (fun e => e.1)

/-- The `files_to_remove` list of one sweep: old entries whose file no longer exists. -/
def sweepRemoveList (env : Env) (st : St) (now : Nat) : List String :=
  (st.pending.filter (fun e => decide (now - e.2 > 60 ∧ e.1 ∉ st.fs))).map (fun e => e.1)

/-- The entries on which the sweep invokes `is_file_complete`: old entries whose file
still exists. -/
def sweepTestedList (env : Env) (st : St) (now : Nat) : List String :=
  (st.pending.filter (fun e => decide (now - e.2 > 60 ∧ e.1 ∈ st.fs))).map (fun e => e.1)

/-- The tracked map after the locked loop: still-unstable old entries refreshed to
`now`, then the vanished entries deleted. -/
def sweepPending2 (env : Env) (st : St) (now : Nat) : List (String × Nat) :=
  (st.pending.map
    (fun e =>
      if now - e.2 > 60 ∧ e.1 ∈ st.fs ∧ env.complete e.1 = false then (e.1, now) else e)).filter
    (fun e => decide (e.1 ∉ sweepRemoveList env st now))

/-- All events of the locked section of one sweep. -/
def sweepEvs (env : Env) (st : St) (now : Nat) : List Ev :=
  (st.pending.map (sweepEntryEvents env st.fs now)).flatten ++
    (sweepRemoveList env st now).map (fun _ => Ev.mapop)

/-- The post-lock processing loop: run `process_new_file` over the ready files in
order, threading the state and appending the traces. -/
def sweepFold (env : Env) (now : Nat) (Q : List String) (init : St × List Ev) :
    St × List Ev :=
  Q.foldl
    (fun acc p =>
      let r := process_new_file env acc.1 p now
      (r.st, acc.2 ++ r.trace))
    init

/-- The function `check_pending_downloads` of `main.py`. Under the lock it walks
the tracked map once: entries older than 60 seconds are re-tested (existence, then
stability — note the stability check runs inside the `with downloading_files_lock`
block), still-unstable entries get their timestamp refreshed, vanished entries are
collected and deleted; after the lock is released the now-ready files are run
through `process_new_file` in map order. -/
def check_pending_downloads (env : Env) (st : St) (now : Nat) : SweepOut :=
  let final :=
    sweepFold env now (sweepProcessList env st now)
      ({ fs := st.fs, pending := sweepPending2 env st now }, [])
  { st := final.1
    tested := sweepTestedList env st now
    processed := sweepProcessList env st now
    trace := Ev.acq :: sweepEvs env st now ++ Ev.rel :: final.2 }

/-- Two size samples taken by `is_file_complete`, `MIN_FILE_AGE` seconds apart:
whether the path existed at each sample, and the result of each `os.path.getsize`
(`none` when the query raises). -/
structure FsView where
  exists1 : Bool
  size1 : Option Nat
  exists2 : Bool
  size2 : Option Nat
deriving DecidableEq, Repr

/-- `MIN_FILE_AGE` of `main.py`: the quiescence window in seconds. -/
def MIN_FILE_AGE : Nat := 3

/-- The function `is_file_complete` of `main.py`: missing file is `False`; a raising
size query is caught and yields `False`; a file that vanished before the second
sample contributes the sentinel `-1`, which never equals a real size. -/
def is_file_complete (v : FsView) : Bool :=
  if v.exists1 = false then false
  else
    match v.size1 with
    | none => false
    | some initial_size =>
      if v.exists2 then
        match v.size2 with
        | none => false
        | some current_size => decide ((initial_size : Int) = (current_size : Int))
      else decide ((initial_size : Int) = (-1 : Int))

/-- Lock depth after a list of events, starting from depth `d`. -/
def evDepth : List Ev → Nat → Nat
  | [], d => d
  | Ev.acq :: t, d => evDepth t (d + 1)
  | Ev.rel :: t, d => evDepth t (d - 1)
  | _ :: t, d => evDepth t d

/-- Whether some network call happens while the lock is held. -/
def badNet : List Ev → Nat → Bool
  | [], _ => false
  | Ev.acq :: t, d => badNet t (d + 1)
  | Ev.rel :: t, d => badNet t (d - 1)
  | Ev.net :: t, d => decide (0 < d) || badNet t d
  | _ :: t, d => badNet t d

/-- Whether some map operation happens while the lock is NOT held. -/
def badMap : List Ev → Nat → Bool
  | [], _ => false
  | Ev.acq :: t, d => badMap t (d + 1)
  | Ev.rel :: t, d => badMap t (d - 1)
  | Ev.mapop :: t, d => decide (d = 0) || badMap t d
  | _ :: t, d => badMap t d

/-- Whether some stability check happens while the lock is held. -/
def chkUnder : List Ev → Nat → Bool
  | [], _ => false
  | Ev.acq :: t, d => chkUnder t (d + 1)
  | Ev.rel :: t, d => chkUnder t (d - 1)
  | Ev.chk _ :: t, d => decide (0 < d) || chkUnder t d
  | _ :: t, d => chkUnder t d

/-- Settings record with the PDF category disabled and everything else enabled. -/
def settingsPDFOff : Settings :=
  { rename_files := true
    organize_folders := true
    file_types := FILE_TYPES.map (fun e => (e.1, decide (e.1 ≠ "PDF"))) }

/-- Environment: PDF disabled, stability check failing, benign other oracles. -/
def envC1 : Env :=
  { complete := fun _ => false
    disk := Disk.valid settingsPDFOff
    pdfText := fun _ => ""
    codeText := fun _ => ""
    service := fun _ => none
    moveOk := fun _ _ => true }

/-- Environment: PDF disabled, stability check succeeding. -/
def envC9 : Env :=
  { complete := fun _ => true
    disk := Disk.valid settingsPDFOff
    pdfText := fun _ => ""
    codeText := fun _ => ""
    service := fun _ => none
    moveOk := fun _ _ => true }

/-- Environment: default settings, stable file, empty PDF excerpt. -/
def envC2a : Env :=
  { complete := fun _ => true
    disk := Disk.valid DEFAULT_SETTINGS
    pdfText := fun _ => ""
    codeText := fun _ => ""
    service := fun _ => none
    moveOk := fun _ _ => true }

/-- Environment: default settings, stable file, non-empty PDF excerpt but a failing
keyword service. -/
def envC2b : Env :=
  { complete := fun _ => true
    disk := Disk.valid DEFAULT_SETTINGS
    pdfText := fun _ => "sample text"
    codeText := fun _ => ""
    service := fun _ => none
    moveOk := fun _ _ => true }

/-- Environment: default settings, stability check failing (file still being written). -/
def envC10 : Env :=
  { complete := fun _ => false
    disk := Disk.valid DEFAULT_SETTINGS
    pdfText := fun _ => ""
    codeText := fun _ => ""
    service := fun _ => none
    moveOk := fun _ _ => true }

/-- Environment for the sweep witness: only `sweep/stable.zip` passes the stability
check. -/
def envC4 : Env :=
  { complete := fun p => decide (p = "sweep/stable.zip")
    disk := Disk.valid DEFAULT_SETTINGS
    pdfText := fun _ => ""
    codeText := fun _ => ""
    service := fun _ => none
    moveOk := fun _ _ => true }

/-- State for the sweep witness: one young entry, one vanished entry, one old
still-unstable entry and one old now-stable entry. -/
def stC4 : St :=
  { fs := ["sweep/stable.zip", "sweep/slow.zip", "sweep/young.zip"]
    pending := [("sweep/young.zip", 90), ("sweep/gone.zip", 0),
      ("sweep/slow.zip", 0), ("sweep/stable.zip", 0)] }

end DlOrg

namespace DlOrg

/- ### Character and string normalisation lemmas -/

lemma lowerChar_lowerChar (c : Char) : lowerChar (lowerChar c) = lowerChar c := by
  generalize h : lowerChar c = d
  unfold lowerChar at h
  split at h <;> subst h <;> try decide
  unfold lowerChar
  split <;> simp_all

lemma pyIsSpace_lowerChar (c : Char) : pyIsSpace (lowerChar c) = pyIsSpace c := by
  unfold lowerChar
  split <;> rfl

lemma lowerChar_eq_comma (c : Char) (h : lowerChar c = ',') : c = ',' := by
  revert h
  unfold lowerChar
  split <;> simp_all

lemma lowerList_lowerList (l : List Char) : lowerList (lowerList l) = lowerList l := by
  unfold lowerList
  rw [List.map_map]
  exact List.map_congr_left (fun c _ => lowerChar_lowerChar c)

lemma dropWhile_lowerList (l : List Char) :
    List.dropWhile pyIsSpace (lowerList l) = lowerList (List.dropWhile pyIsSpace l) := by
  induction l with
  | nil => rfl
  | cons a t ih =>
    show List.dropWhile pyIsSpace (lowerChar a :: lowerList t) = _
    rw [List.dropWhile_cons, List.dropWhile_cons, pyIsSpace_lowerChar]
    by_cases h : pyIsSpace a = true
    · simp [h, ih]
    · simp at h
      simp [h]
      rfl

lemma reverse_lowerList (l : List Char) : (lowerList l).reverse = lowerList l.reverse := by
  unfold lowerList
  exact (List.map_reverse lowerChar l).symm

lemma stripList_lowerList (l : List Char) :
    stripList (lowerList l) = lowerList (stripList l) := by
  unfold stripList
  rw [dropWhile_lowerList, reverse_lowerList, dropWhile_lowerList, reverse_lowerList]

lemma head_not_of_dropWhile_cons {α : Type} (p : α → Bool) :
    ∀ {l : List α} {a : α} {t : List α}, List.dropWhile p l = a :: t → p a = false := by
  intro l
  induction l with
  | nil => intro a t h; simp [List.dropWhile] at h
  | cons b l2 ih =>
    intro a t h
    rw [List.dropWhile_cons] at h
    by_cases hb : p b = true
    · rw [if_pos hb] at h
      exact ih h
    · rw [if_neg hb] at h
      cases h
      simpa using hb

lemma stripList_dropWhile_fix (l : List Char) :
    List.dropWhile pyIsSpace (stripList l) = stripList l := by
  obtain ⟨t, ht⟩ :=
    List.dropWhile_suffix (l := (l.dropWhile pyIsSpace).reverse) pyIsSpace
  unfold stripList
  cases hd : ((l.dropWhile pyIsSpace).reverse.dropWhile pyIsSpace).reverse with
  | nil => simp
  | cons a s2 =>
    have hm : l.dropWhile pyIsSpace = a :: (s2 ++ t.reverse) := by
      have h2 := congrArg List.reverse ht
      rw [List.reverse_append, List.reverse_reverse] at h2
      rw [hd] at h2
      simpa using h2.symm
    have hpa := head_not_of_dropWhile_cons pyIsSpace hm
    rw [List.dropWhile_cons]
    simp [hpa]

lemma stripList_idem (l : List Char) : stripList (stripList l) = stripList l := by
  rw [show stripList (stripList l)
      = ((List.dropWhile pyIsSpace (stripList l)).reverse.dropWhile pyIsSpace).reverse
    from rfl]
  rw [stripList_dropWhile_fix]
  rw [show stripList l
      = ((l.dropWhile pyIsSpace).reverse.dropWhile pyIsSpace).reverse from rfl]
  rw [List.reverse_reverse, List.dropWhile_idempotent]

lemma stripList_lower_strip (k : List Char) :
    stripList (lowerList (stripList k)) = lowerList (stripList k) := by
  rw [stripList_lowerList, stripList_idem]

lemma stripList_subset (k : List Char) : stripList k ⊆ k := by
  intro a ha
  unfold stripList at ha
  rw [List.mem_reverse] at ha
  have h1 := (List.dropWhile_sublist (l := (k.dropWhile pyIsSpace).reverse) pyIsSpace).subset ha
  rw [List.mem_reverse] at h1
  exact (List.dropWhile_sublist pyIsSpace).subset h1

lemma splitCommaAux_no_comma :
    ∀ (l cur : List Char), (',' ∉ cur) → ∀ t ∈ splitCommaAux l cur, ',' ∉ t := by
  intro l
  induction l with
  | nil =>
    intro cur hcur t ht
    simp [splitCommaAux] at ht
    subst ht
    simpa using hcur
  | cons c rest ih =>
    intro cur hcur t ht
    by_cases hc : c = ','
    · subst hc
      simp [splitCommaAux] at ht
      rcases ht with h | h
      · subst h; simpa using hcur
      · exact ih [] (by simp) t h
    · simp [splitCommaAux, hc] at ht
      refine ih (c :: cur) ?_ t ht
      simp [hcur, Ne.symm hc]

lemma splitComma_no_comma (l : List Char) : ∀ t ∈ splitComma l, ',' ∉ t :=
  splitCommaAux_no_comma l [] (by simp)

/- ### C6: the extract_keywords contract -/

/-- C6: `extract_keywords` returns at most two entries, each non-empty, fully
lower-cased, whitespace-trimmed and comma-free (a single comma-separated token);
a failing service call (`none`) yields the empty list without raising; and a
malformed multi-token response is truncated after empty tokens are dropped. -/
theorem c6_extract_keywords_contract (resp : Option String) :
    (extract_keywords resp).length ≤ 2 ∧
    (∀ e ∈ extract_keywords resp,
      stripS e = e ∧ lowerS e = e ∧ e ≠ "" ∧ ',' ∉ e.data) ∧
    (resp = none → extract_keywords resp = []) := by
  refine ⟨?_, ?_, ?_⟩
  · cases resp with
    | none => simp [extract_keywords]
    | some content =>
      simp only [extract_keywords]
      rw [List.length_take]
      omega
  · intro e he
    cases resp with
    | none => simp [extract_keywords] at he
    | some content =>
      simp only [extract_keywords] at he
      have he2 := List.take_subset 2 _ he
      rw [List.mem_map] at he2
      obtain ⟨k, hk, hke⟩ := he2
      rw [List.mem_filter] at hk
      obtain ⟨hk1, hk2⟩ := hk
      have hkne : stripList k ≠ [] := by simpa using hk2
      refine ⟨?_, ?_, ?_, ?_⟩
      · rw [← hke]
        apply String.ext
        show stripList (lowerList (stripList k)) = lowerList (stripList k)
        exact stripList_lower_strip k
      · rw [← hke]
        apply String.ext
        show lowerList (lowerList (stripList k)) = lowerList (stripList k)
        exact lowerList_lowerList (stripList k)
      · rw [← hke]
        intro hcon
        have : lowerList (stripList k) = [] := by
          have := congrArg String.data hcon
          simpa using this
        unfold lowerList at this
        exact hkne (List.map_eq_nil_iff.mp this)
      · rw [← hke]
        show ',' ∉ lowerList (stripList k)
        intro hmem
        unfold lowerList at hmem
        rw [List.mem_map] at hmem
        obtain ⟨b, hb, hbc⟩ := hmem
        have hbcomma := lowerChar_eq_comma b hbc
        subst hbcomma
        exact splitComma_no_comma _ k hk1 (stripList_subset k hb)
  · intro h
    subst h
    rfl

/-- Witness for C6 at a concrete malformed three-token response. -/
theorem c6_extract_keywords_contract_witness :
    (extract_keywords (some " AB, cd ,ef")).length ≤ 2 ∧
    stripS "ab" = "ab" ∧ lowerS "ab" = "ab" ∧ "ab" ≠ "" ∧ ',' ∉ "ab".data ∧
    extract_keywords none = [] := by
  have h := c6_extract_keywords_contract (some " AB, cd ,ef")
  have h0 := c6_extract_keywords_contract none
  have hmem : "ab" ∈ extract_keywords (some " AB, cd ,ef") := by decide
  obtain ⟨h1, h2, h3, h4⟩ := h.2.1 "ab" hmem
  exact ⟨h.1, h1, h2, h3, h4, h0.2.2 rfl⟩

/- ### C3: load_settings on absence and on malformed content -/

/-- C3 counterexample: on a malformed (unreadable) settings file the defaults are
returned but NOT persisted — the disk still holds the malformed content, so a
subsequent read takes the error path again instead of succeeding. -/
theorem c3_settings_default_counterexample :
    load_settings Disk.malformed = (DEFAULT_SETTINGS, Disk.malformed) ∧
    Disk.malformed ≠ Disk.valid DEFAULT_SETTINGS ∧
    load_settings (load_settings Disk.malformed).2 = (DEFAULT_SETTINGS, Disk.malformed) := by
  refine ⟨rfl, by decide, rfl⟩

/-- C3 amended: when the settings file is absent the default record (both toggles
on, every known category enabled) is returned and persisted; when the file is
present but malformed the default record is returned but the disk is left
unchanged; a well-formed file is returned as parsed. -/
theorem c3_settings_default_amended :
    load_settings Disk.absent = (DEFAULT_SETTINGS, Disk.valid DEFAULT_SETTINGS) ∧
    load_settings Disk.malformed = (DEFAULT_SETTINGS, Disk.malformed) ∧
    (∀ s, load_settings (Disk.valid s) = (s, Disk.valid s)) ∧
    DEFAULT_SETTINGS.rename_files = true ∧
    DEFAULT_SETTINGS.organize_folders = true ∧
    (FILE_TYPES.all (fun ce => getFileTypeEnabled DEFAULT_SETTINGS ce.1)) = true := by
  exact ⟨rfl, rfl, fun s => rfl, rfl, rfl, by decide⟩

/- ### C7: the stability check -/

/-- C7: `MIN_FILE_AGE` is the fixed 3-second quiescence window, and
`is_file_complete` returns true exactly when the file existed at both samples and
both size queries succeeded with equal results; a missing file at the first
sample, a vanished file at the second sample, and any raising size query all
yield false. -/
theorem c7_is_file_complete_spec :
    MIN_FILE_AGE = 3 ∧
    ∀ v : FsView,
      is_file_complete v = true ↔
        (v.exists1 = true ∧ v.exists2 = true ∧ ∃ n, v.size1 = some n ∧ v.size2 = some n) := by
  refine ⟨rfl, ?_⟩
  intro v
  obtain ⟨e1, s1, e2, s2⟩ := v
  cases e1 <;> cases e2 <;> cases s1 <;> cases s2 <;>
    simp [is_file_complete] <;> omega

/-- Witness for C7: a file present at both samples with equal sizes is complete. -/
theorem c7_is_file_complete_spec_witness :
    is_file_complete { exists1 := true, size1 := some 7, exists2 := true, size2 := some 7 }
      = true :=
  (c7_is_file_complete_spec.2 _).mpr ⟨rfl, rfl, 7, rfl, rfl⟩

/- ### C8: classification -/

lemma lowerS_idem (s : String) : lowerS (lowerS s) = lowerS s := by
  apply String.ext
  show lowerList (lowerList s.data) = lowerList s.data
  exact lowerList_lowerList s.data

lemma lookupCat_lowerS (T : List (String × List String)) (e : String) :
    lookupCat T (lowerS e) = lookupCat T e := by
  induction T with
  | nil => rfl
  | cons ce rest ih =>
    obtain ⟨category, extensions⟩ := ce
    show (if lowerS (lowerS e) ∈ extensions then category else lookupCat rest (lowerS e)) = _
    rw [lowerS_idem, ih]
    rfl

lemma lookupCat_eq_other (T : List (String × List String)) (e : String)
    (h : ∀ ce ∈ T, lowerS e ∉ ce.2) : lookupCat T e = "Other" := by
  induction T with
  | nil => rfl
  | cons ce rest ih =>
    obtain ⟨category, extensions⟩ := ce
    have h1 : lowerS e ∉ extensions := h (category, extensions) (by simp)
    show (if lowerS e ∈ extensions then category else lookupCat rest e) = "Other"
    rw [if_neg h1]
    exact ih (fun ce hce => h ce (List.mem_cons_of_mem _ hce))

lemma lookupCat_eq_of_mem (T : List (String × List String)) (e : String) (ce : String × List String)
    (hce : ce ∈ T) (hmem : lowerS e ∈ ce.2)
    (hdisj : ∀ a ∈ T, ∀ b ∈ T, a.1 ≠ b.1 → ∀ x ∈ a.2, x ∉ b.2) :
    lookupCat T e = ce.1 := by
  induction T with
  | nil => simp at hce
  | cons hd rest ih =>
    obtain ⟨category, extensions⟩ := hd
    show (if lowerS e ∈ extensions then category else lookupCat rest e) = ce.1
    by_cases hhd : lowerS e ∈ extensions
    · rw [if_pos hhd]
      rcases List.mem_cons.mp hce with h | h
      · rw [h]
      · by_contra hne
        exact hdisj (category, extensions) (by simp) ce (List.mem_cons_of_mem _ h)
          hne (lowerS e) hhd hmem
    · rw [if_neg hhd]
      rcases List.mem_cons.mp hce with h | h
      · exfalso
        rw [h] at hmem
        exact hhd hmem
      · exact ih h
          (fun a ha b hb => hdisj a (List.mem_cons_of_mem _ ha) b (List.mem_cons_of_mem _ hb))

lemma file_types_disjoint :
    ∀ a ∈ FILE_TYPES, ∀ b ∈ FILE_TYPES, a.1 ≠ b.1 → ∀ x ∈ a.2, x ∉ b.2 := by
  decide

/-- C8: classification is pure and total — `classify` extracts the lowercase
extension (with leading dot) and looks it up; an extension absent from every
category set (including the empty extension) yields "Other"; an extension in some
category's set yields that category's name; and no extension of the table as built
belongs to two different categories. -/
theorem c8_classification :
    (∀ p : String, classify p = get_category_for_extension (splitext p).2) ∧
    (∀ ext : String,
      (∀ ce ∈ FILE_TYPES, lowerS ext ∉ ce.2) → get_category_for_extension ext = "Other") ∧
    (∀ ext : String, ∀ ce ∈ FILE_TYPES, lowerS ext ∈ ce.2 →
      get_category_for_extension ext = ce.1) ∧
    (∀ a ∈ FILE_TYPES, ∀ b ∈ FILE_TYPES, a.1 ≠ b.1 → ∀ x ∈ a.2, x ∉ b.2) := by
  refine ⟨?_, ?_, ?_, file_types_disjoint⟩
  · intro p
    exact lookupCat_lowerS FILE_TYPES (splitext p).2
  · intro ext h
    exact lookupCat_eq_other FILE_TYPES ext h
  · intro ext ce hce hmem
    exact lookupCat_eq_of_mem FILE_TYPES ext ce hce hmem file_types_disjoint

/-- Witness for C8 at concrete extensions: ".PdF" is classified as PDF (case
insensitively), ".xyz" and "" fall through to "Other". -/
theorem c8_classification_witness :
    get_category_for_extension ".PdF" = "PDF" ∧
    get_category_for_extension ".xyz" = "Other" ∧
    get_category_for_extension "" = "Other" ∧
    classify "~/Downloads/Report.PDF" = get_category_for_extension (splitext "~/Downloads/Report.PDF").2 := by
  refine ⟨?_, ?_, ?_, c8_classification.1 "~/Downloads/Report.PDF"⟩
  · exact c8_classification.2.2.1 ".PdF" ("PDF", [".pdf"]) (by decide) (by decide)
  · exact c8_classification.2.1 ".xyz" (by decide)
  · exact c8_classification.2.1 "" (by decide)


/- ### C5: collision resolution -/

lemma natStrLAux_irrel :
    ∀ (n f1 f2 : Nat), n < f1 → n < f2 → natStrLAux f1 n = natStrLAux f2 n := by
  intro n
  induction n using Nat.strong_induction_on with
  | _ n ih =>
    intro f1 f2 h1 h2
    cases f1 with
    | zero => omega
    | succ a =>
      cases f2 with
      | zero => omega
      | succ b =>
        show (if n < 10 then [digitChar n]
            else natStrLAux a (n / 10) ++ [digitChar (n % 10)])
          = (if n < 10 then [digitChar n]
            else natStrLAux b (n / 10) ++ [digitChar (n % 10)])
        by_cases h : n < 10
        · rw [if_pos h, if_pos h]
        · rw [if_neg h, if_neg h]
          have hdiv : n / 10 < n := Nat.div_lt_self (by omega) (by omega)
          rw [ih (n / 10) hdiv a b (by omega) (by omega)]

lemma natStrL_eq (n : Nat) :
    natStrL n = if n < 10 then [digitChar n]
      else natStrL (n / 10) ++ [digitChar (n % 10)] := by
  show natStrLAux (n + 1) n = _
  by_cases h : n < 10
  · rw [if_pos h]
    show (if n < 10 then _ else _) = _
    rw [if_pos h]
  · rw [if_neg h]
    show (if n < 10 then _ else _) = _
    rw [if_neg h]
    have hdiv : n / 10 < n := Nat.div_lt_self (by omega) (by omega)
    rw [natStrLAux_irrel (n / 10) n (n / 10 + 1) hdiv (by omega)]
    rfl

lemma natStrL_ne_nil (n : Nat) : natStrL n ≠ [] := by
  rw [natStrL_eq]
  split
  · simp
  · simp

lemma digitVal_digitChar (d : Nat) (h : d < 10) : digitVal (digitChar d) = d := by
  interval_cases d <;> decide

lemma natValL_append_digit (l : List Char) (c : Char) :
    natValL (l ++ [c]) = natValL l * 10 + digitVal c := by
  unfold natValL
  rw [List.foldl_append]
  rfl

lemma natValL_natStrL (n : Nat) : natValL (natStrL n) = n := by
  induction n using Nat.strong_induction_on with
  | _ n ih =>
    rw [natStrL_eq]
    by_cases h : n < 10
    · rw [if_pos h]
      show natValL [digitChar n] = n
      unfold natValL
      simp [List.foldl]
      exact digitVal_digitChar n h
    · rw [if_neg h]
      rw [natValL_append_digit, ih (n / 10) (Nat.div_lt_self (by omega) (by omega)),
        digitVal_digitChar (n % 10) (Nat.mod_lt _ (by omega))]
      omega

lemma natStrL_injective : Function.Injective natStrL := by
  intro a b h
  have h2 := congrArg natValL h
  rwa [natValL_natStrL, natValL_natStrL] at h2

lemma candPath_data_zero (dir base ext : String) :
    (candPath dir base ext 0).data
      = dir.data ++ "/".data ++ (base.data ++ ext.data) := by
  show (dir ++ "/" ++ (base ++ ext)).data = _
  rw [String.data_append, String.data_append, String.data_append]

lemma candPath_data_succ (dir base ext : String) (k : Nat) (hk : k ≠ 0) :
    (candPath dir base ext k).data
      = dir.data ++ "/".data ++ (base.data ++ ("_".data ++ (natStrL k ++ ext.data))) := by
  unfold candPath
  rw [if_neg hk]
  show (dir ++ "/" ++ (base ++ "_" ++ natStrS k ++ ext)).data = _
  simp only [String.data_append]
  show _ ++ (_ ++ _ ++ (natStrS k).data ++ _) = _
  have : (natStrS k).data = natStrL k := rfl
  rw [this]
  simp [List.append_assoc]

lemma candPath_injective (dir base ext : String) :
    Function.Injective (candPath dir base ext) := by
  intro j k h
  have hd := congrArg String.data h
  by_cases hj : j = 0 <;> by_cases hk : k = 0
  · rw [hj, hk]
  · exfalso
    rw [hj, candPath_data_zero, candPath_data_succ dir base ext k hk] at hd
    have hlen := congrArg List.length hd
    simp [List.length_append] at hlen
    have hne := natStrL_ne_nil k
    have : 0 < (natStrL k).length := List.length_pos.mpr hne
    omega
  · exfalso
    rw [hk, candPath_data_succ dir base ext j hj, candPath_data_zero] at hd
    have hlen := congrArg List.length hd
    simp [List.length_append] at hlen
    have hne := natStrL_ne_nil j
    have : 0 < (natStrL j).length := List.length_pos.mpr hne
    omega
  · rw [candPath_data_succ dir base ext j hj, candPath_data_succ dir base ext k hk] at hd
    have h1 : natStrL j = natStrL k := by simpa [List.append_assoc] using hd
    exact natStrL_injective h1

lemma findFreePath_spec (fs : List String) (cand : Nat → String) :
    ∀ (fuel start : Nat), (∃ j, start ≤ j ∧ j ≤ start + fuel ∧ cand j ∉ fs) →
      ∃ k, start ≤ k ∧ findFreePath fs cand fuel start = cand k ∧ cand k ∉ fs ∧
        ∀ j, start ≤ j → j < k → cand j ∈ fs := by
  intro fuel
  induction fuel with
  | zero =>
    intro start hex
    obtain ⟨j, hj1, hj2, hj3⟩ := hex
    have hj : j = start := by omega
    subst hj
    exact ⟨j, le_refl j, rfl, hj3, fun i h1 h2 => absurd h1 (by omega)⟩
  | succ f ih =>
    intro start hex
    obtain ⟨j, hj1, hj2, hj3⟩ := hex
    by_cases hc : cand start ∈ fs
    · have hjs : j ≠ start := fun e => hj3 (e ▸ hc)
      obtain ⟨k, hk1, hk2, hk3, hk4⟩ :=
        ih (start + 1) ⟨j, by omega, by omega, hj3⟩
      refine ⟨k, by omega, ?_, hk3, ?_⟩
      · show findFreePath fs cand (f + 1) start = cand k
        rw [show findFreePath fs cand (f + 1) start
            = if cand start ∈ fs then findFreePath fs cand f (start + 1) else cand start
          from rfl]
        rw [if_pos hc]
        exact hk2
      · intro i h1 h2
        by_cases hi : i = start
        · rw [hi]; exact hc
        · exact hk4 i (by omega) h2
    · refine ⟨start, le_refl start, ?_, hc, fun i h1 h2 => absurd h1 (by omega)⟩
      show findFreePath fs cand (f + 1) start = cand start
      rw [show findFreePath fs cand (f + 1) start
          = if cand start ∈ fs then findFreePath fs cand f (start + 1) else cand start
        from rfl]
      rw [if_neg hc]

lemma exists_free_cand (fs : List String) (cand : Nat → String)
    (hinj : Function.Injective cand) : ∃ j, j ≤ fs.length ∧ cand j ∉ fs := by
  by_contra hcon
  push_neg at hcon
  have hsub : ((List.range (fs.length + 1)).map cand) ⊆ fs := by
    intro x hx
    rw [List.mem_map] at hx
    obtain ⟨j, hj, rfl⟩ := hx
    rw [List.mem_range] at hj
    exact hcon j (by omega)
  have hnodup : ((List.range (fs.length + 1)).map cand).Nodup :=
    (List.nodup_range _).map hinj
  have hlen := (List.subperm_of_subset hnodup hsub).length_le
  simp at hlen

lemma rename_dest (env : Env) (fs : List String) (file_path category : String)
    (keywords : List String) :
    (rename_and_sort_file env fs file_path category keywords).dest =
      resolvePath fs
        (if (load_settings env.disk).1.organize_folders then pathJoin DOWNLOADS_FOLDER category
          else DOWNLOADS_FOLDER)
        (if (load_settings env.disk).1.rename_files then
            (if keywords ≠ [] then String.intercalate "_" keywords
              else (splitext (basename file_path)).1)
          else (splitext (basename file_path)).1)
        (splitext (basename file_path)).2 := rfl

lemma resolvePath_spec (fs : List String) (dir base ext : String) :
    resolvePath fs dir base ext ∉ fs ∧
    ∃ k, resolvePath fs dir base ext = candPath dir base ext k ∧
      candPath dir base ext k ∉ fs ∧ ∀ j < k, candPath dir base ext j ∈ fs := by
  obtain ⟨j, hj, hfree⟩ := exists_free_cand fs _ (candPath_injective dir base ext)
  obtain ⟨k, _, h2, h3, h4⟩ :=
    findFreePath_spec fs (candPath dir base ext) (fs.length + 1) 0
      ⟨j, by omega, by omega, hfree⟩
  refine ⟨?_, k, h2, h3, fun i hiu => h4 i (by omega) hiu⟩
  show findFreePath fs (candPath dir base ext) (fs.length + 1) 0 ∉ fs
  rw [h2]
  exact h3

/-- C5: collision resolution is a deterministic sequential scan. The resolved path
never already exists (so a move never overwrites), the destination actually used by
`rename_and_sort_file` never already exists, the resolved path is the first free
candidate of the `_1, _2, …` sequence, and — starting from a state where no
candidate exists — three successive placements of the same base name and extension
land on the unsuffixed name, the `_1` name and the `_2` name, which are pairwise
distinct. -/
theorem c5_collision_resolution (fs : List String) (dir base ext : String) :
    (resolvePath fs dir base ext ∉ fs) ∧
    (∀ env file_path category keywords,
      (rename_and_sort_file env fs file_path category keywords).dest ∉ fs) ∧
    (∃ k, resolvePath fs dir base ext = candPath dir base ext k ∧
      ∀ j < k, candPath dir base ext j ∈ fs) ∧
    ((∀ k, candPath dir base ext k ∉ fs) →
      resolvePath fs dir base ext = candPath dir base ext 0 ∧
      resolvePath (candPath dir base ext 0 :: fs) dir base ext = candPath dir base ext 1 ∧
      resolvePath (candPath dir base ext 1 :: candPath dir base ext 0 :: fs) dir base ext
        = candPath dir base ext 2 ∧
      candPath dir base ext 0 ≠ candPath dir base ext 1 ∧
      candPath dir base ext 0 ≠ candPath dir base ext 2 ∧
      candPath dir base ext 1 ≠ candPath dir base ext 2) := by
  have hinj := candPath_injective dir base ext
  refine ⟨(resolvePath_spec fs dir base ext).1, ?_, ?_, ?_⟩
  · intro env file_path category keywords
    rw [rename_dest]
    exact (resolvePath_spec fs _ _ _).1
  · obtain ⟨_, k, hk1, _, hk3⟩ := resolvePath_spec fs dir base ext
    exact ⟨k, hk1, hk3⟩
  · intro hfresh
    have hne01 : candPath dir base ext 0 ≠ candPath dir base ext 1 :=
      fun e => by simpa using hinj e
    have hne02 : candPath dir base ext 0 ≠ candPath dir base ext 2 :=
      fun e => by simpa using hinj e
    have hne12 : candPath dir base ext 1 ≠ candPath dir base ext 2 :=
      fun e => by simpa using hinj e
    have h0 : resolvePath fs dir base ext = candPath dir base ext 0 := by
      obtain ⟨_, k, hk1, _, hk3⟩ := resolvePath_spec fs dir base ext
      rcases Nat.eq_zero_or_pos k with hz | hp
      · rw [hk1, hz]
      · exact absurd (hk3 0 hp) (hfresh 0)
    have h1 : resolvePath (candPath dir base ext 0 :: fs) dir base ext
        = candPath dir base ext 1 := by
      obtain ⟨hfree, k, hk1, hk2, hk3⟩ :=
        resolvePath_spec (candPath dir base ext 0 :: fs) dir base ext
      have hk0 : k ≠ 0 := by
        intro hz
        rw [hz] at hk2
        exact hk2 (by simp)
      have hklt : k < 2 := by
        by_contra hge
        have h1mem := hk3 1 (by omega)
        rcases List.mem_cons.mp h1mem with he | hm
        · exact hne01 he.symm
        · exact hfresh 1 hm
      have : k = 1 := by omega
      rw [hk1, this]
    have h2 : resolvePath (candPath dir base ext 1 :: candPath dir base ext 0 :: fs)
        dir base ext = candPath dir base ext 2 := by
      obtain ⟨hfree, k, hk1, hk2, hk3⟩ :=
        resolvePath_spec (candPath dir base ext 1 :: candPath dir base ext 0 :: fs) dir base ext
      have hk0 : k ≠ 0 := by
        intro hz
        rw [hz] at hk2
        exact hk2 (by simp)
      have hk1ne : k ≠ 1 := by
        intro ho
        rw [ho] at hk2
        exact hk2 (by simp)
      have hklt : k < 3 := by
        by_contra hge
        have h2mem := hk3 2 (by omega)
        rcases List.mem_cons.mp h2mem with he | hm
        · exact hne12 he.symm
        · rcases List.mem_cons.mp hm with he2 | hm2
          · exact hne02 he2.symm
          · exact hfresh 2 hm2
      have : k = 2 := by omega
      rw [hk1, this]
    exact ⟨h0, h1, h2, hne01, hne02, hne12⟩

/-- Witness for C5: three successive placements of `acme_invoice.pdf` material into
an initially empty folder land on the plain name, then `_1`, then `_2`. -/
theorem c5_collision_resolution_witness :
    resolvePath [] "~/Downloads/PDF" "acme_invoice" ".pdf"
      = "~/Downloads/PDF/acme_invoice.pdf" ∧
    resolvePath ["~/Downloads/PDF/acme_invoice.pdf"] "~/Downloads/PDF" "acme_invoice" ".pdf"
      = "~/Downloads/PDF/acme_invoice_1.pdf" ∧
    resolvePath ["~/Downloads/PDF/acme_invoice_1.pdf", "~/Downloads/PDF/acme_invoice.pdf"]
      "~/Downloads/PDF" "acme_invoice" ".pdf" = "~/Downloads/PDF/acme_invoice_2.pdf" := by
  obtain ⟨h0, h1, h2, _⟩ :=
    (c5_collision_resolution [] "~/Downloads/PDF" "acme_invoice" ".pdf").2.2.2
      (fun k => by simp)
  have e0 : candPath "~/Downloads/PDF" "acme_invoice" ".pdf" 0
      = "~/Downloads/PDF/acme_invoice.pdf" := by decide
  have e1 : candPath "~/Downloads/PDF" "acme_invoice" ".pdf" 1
      = "~/Downloads/PDF/acme_invoice_1.pdf" := by decide
  have e2 : candPath "~/Downloads/PDF" "acme_invoice" ".pdf" 2
      = "~/Downloads/PDF/acme_invoice_2.pdf" := by decide
  rw [e0] at h0 h1
  rw [e1] at h1 h2
  rw [e2] at h2
  exact ⟨h0, h1, h2⟩


/- ### Pending-map helper lemmas -/

lemma setKey_mem (m : List (String × Nat)) (k : String) (v : Nat) :
    (k, v) ∈ setKey m k v := by
  unfold setKey
  split
  · rename_i h
    rw [List.any_eq_true] at h
    obtain ⟨e, he, hek⟩ := h
    rw [List.mem_map]
    refine ⟨e, he, ?_⟩
    simp at hek
    simp [hek]
  · simp

lemma setKey_mem_of_ne (m : List (String × Nat)) (k : String) (v : Nat)
    (x : String × Nat) (hne : x.1 ≠ k) : x ∈ setKey m k v ↔ x ∈ m := by
  unfold setKey
  split
  · rw [List.mem_map]
    constructor
    · rintro ⟨e, he, hex⟩
      by_cases hek : e.1 = k
      · rw [if_pos hek] at hex
        exfalso
        apply hne
        rw [← hex]
      · rw [if_neg hek] at hex
        rw [hex] at he
        exact he
    · intro hx
      refine ⟨x, hx, ?_⟩
      rw [if_neg hne]
  · rw [List.mem_append]
    constructor
    · rintro (h | h)
      · exact h
      · exfalso
        simp at h
        exact hne (by rw [h])
    · exact fun h => Or.inl h

lemma eraseKey_mem_of_ne (m : List (String × Nat)) (k : String)
    (x : String × Nat) (hne : x.1 ≠ k) : x ∈ eraseKey m k ↔ x ∈ m := by
  unfold eraseKey
  rw [List.mem_filter]
  simp [hne]

lemma eraseKey_key_not_mem (m : List (String × Nat)) (k : String) :
    k ∉ keysOf (eraseKey m k) := by
  unfold eraseKey keysOf
  intro h
  rw [List.mem_map] at h
  obtain ⟨e, he, hek⟩ := h
  rw [List.mem_filter] at he
  simp at he
  exact he.2 hek

/- ### Shape lemmas for process_new_file -/

lemma complete_false_of_ne_true {env : Env} {p : String} (h : ¬env.complete p = true) :
    env.complete p = false := by
  revert h
  cases env.complete p <;> simp

lemma process_new_file_eq_not_exist (env : Env) (st : St) (p : String) (now : Nat)
    (h : p ∉ st.fs) :
    process_new_file env st p now = { st := st, attempt := none, moved := false, trace := [] } := by
  unfold process_new_file
  rw [if_pos h]

lemma process_new_file_eq_incomplete (env : Env) (st : St) (p : String) (now : Nat)
    (h1 : p ∈ st.fs) (h2 : env.complete p = false) :
    process_new_file env st p now =
      { st := { fs := st.fs, pending := setKey st.pending p now }
        attempt := none, moved := false
        trace := [Ev.chk p, Ev.acq, Ev.mapop, Ev.rel] } := by
  unfold process_new_file
  rw [if_neg (fun hn => hn h1), if_pos h2]

lemma process_new_file_eq_gate (env : Env) (st : St) (p : String) (now : Nat)
    (h1 : p ∈ st.fs) (h2 : env.complete p = true)
    (h3 : classify p ≠ "Other" ∧ getFileTypeEnabled (load_settings env.disk).1 (classify p) = false) :
    process_new_file env st p now =
      { st := { fs := st.fs, pending := eraseKey st.pending p }
        attempt := none, moved := false
        trace := [Ev.chk p, Ev.acq, Ev.mapop, Ev.rel] } := by
  unfold process_new_file
  rw [if_neg (fun hn => hn h1), if_neg (by simp [h2]), if_pos h3]

lemma process_new_file_eq_dispatch (env : Env) (st : St) (p : String) (now : Nat)
    (h1 : p ∈ st.fs) (h2 : env.complete p = true)
    (h3 : ¬(classify p ≠ "Other" ∧
      getFileTypeEnabled (load_settings env.disk).1 (classify p) = false)) :
    process_new_file env st p now =
      { st := { fs := (dispatchProcess env st.fs p (classify p)).fs
                pending := eraseKey st.pending p }
        attempt := (dispatchProcess env st.fs p (classify p)).attempt
        moved := (dispatchProcess env st.fs p (classify p)).moved
        trace := [Ev.chk p, Ev.acq, Ev.mapop, Ev.rel] ++
          (if (dispatchProcess env st.fs p (classify p)).net then [Ev.net] else []) } := by
  unfold process_new_file
  rw [if_neg (fun hn => hn h1), if_neg (by simp [h2]), if_neg h3]

lemma rename_fs_eq (env : Env) (fs : List String) (p cat : String) (kws : List String) :
    (rename_and_sort_file env fs p cat kws).fs =
      if env.moveOk p (rename_and_sort_file env fs p cat kws).dest = true
      then (rename_and_sort_file env fs p cat kws).dest :: fs.erase p else fs := rfl

lemma rename_fs_superset (env : Env) (fs : List String) (p cat : String)
    (kws : List String) (x : String) (hx : x ∈ fs) (hne : x ≠ p) :
    x ∈ (rename_and_sort_file env fs p cat kws).fs := by
  rw [rename_fs_eq]
  split
  · exact List.mem_cons_of_mem _ ((List.mem_erase_of_ne hne).mpr hx)
  · exact hx

lemma process_with_keywords_fs_superset (env : Env) (fs : List String) (p cat text : String)
    (x : String) (hx : x ∈ fs) (hne : x ≠ p) :
    x ∈ (process_with_keywords env fs p cat text).fs := by
  unfold process_with_keywords
  split
  · exact rename_fs_superset env fs p cat _ x hx hne
  · exact hx

set_option maxHeartbeats 1000000 in
lemma dispatchProcess_fs_superset (env : Env) (fs : List String) (p cat : String)
    (x : String) (hx : x ∈ fs) (hne : x ≠ p) :
    x ∈ (dispatchProcess env fs p cat).fs := by
  have hplain : ∀ cat2, x ∈ (process_plain env fs p cat2).fs :=
    fun cat2 => rename_fs_superset env fs p cat2 [] x hx hne
  have hwk : ∀ cat2 text, x ∈ (process_with_keywords env fs p cat2 text).fs :=
    fun cat2 text => process_with_keywords_fs_superset env fs p cat2 text x hx hne
  unfold dispatchProcess
  split
  · exact hwk "PDF" (env.pdfText p)
  · split
    · exact hplain "Images"
    · split
      · exact hplain "Archives"
      · split
        · exact hwk "Code" (env.codeText p)
        · split
          · exact hplain "Spreadsheets"
          · split
            · exact hplain "Disk Images"
            · split
              · exact hplain "Documents"
              · split
                · exact hplain "Videos"
                · split
                  · exact hplain "Audio"
                  · split
                    · exact hplain "Presentations"
                    · split
                      · exact hplain "Executables"
                      · exact hplain "Other"

/-- In the stable-file branch the entry is removed from the tracked map first,
whatever happens afterwards. -/
lemma process_new_file_pending_of_complete (env : Env) (st : St) (p : String) (now : Nat)
    (hfs : p ∈ st.fs) (hc : env.complete p = true) :
    (process_new_file env st p now).st.pending = eraseKey st.pending p := by
  by_cases h3 : classify p ≠ "Other" ∧
      getFileTypeEnabled (load_settings env.disk).1 (classify p) = false
  · rw [process_new_file_eq_gate env st p now hfs hc h3]
  · rw [process_new_file_eq_dispatch env st p now hfs hc h3]

/-- Entries for other keys are never touched by one `process_new_file` call. -/
lemma process_new_file_pending_other (env : Env) (st : St) (p : String) (now : Nat)
    (x : String × Nat) (hne : x.1 ≠ p) :
    (x ∈ (process_new_file env st p now).st.pending ↔ x ∈ st.pending) := by
  by_cases h1 : p ∈ st.fs
  · by_cases h2 : env.complete p = true
    · by_cases h3 : classify p ≠ "Other" ∧
          getFileTypeEnabled (load_settings env.disk).1 (classify p) = false
      · rw [process_new_file_eq_gate env st p now h1 h2 h3]
        exact eraseKey_mem_of_ne st.pending p x hne
      · rw [process_new_file_eq_dispatch env st p now h1 h2 h3]
        exact eraseKey_mem_of_ne st.pending p x hne
    · rw [process_new_file_eq_incomplete env st p now h1 (complete_false_of_ne_true h2)]
      exact setKey_mem_of_ne st.pending p now x hne
  · rw [process_new_file_eq_not_exist env st p now h1]

/-- No branch of `process_new_file` removes any other existing file from the
filesystem: only the processed path itself can be moved away. -/
lemma process_new_file_fs_superset (env : Env) (st : St) (p : String) (now : Nat)
    (x : String) (hx : x ∈ st.fs) (hne : x ≠ p) :
    x ∈ (process_new_file env st p now).st.fs := by
  by_cases h1 : p ∈ st.fs
  · by_cases h2 : env.complete p = true
    · by_cases h3 : classify p ≠ "Other" ∧
          getFileTypeEnabled (load_settings env.disk).1 (classify p) = false
      · rw [process_new_file_eq_gate env st p now h1 h2 h3]
        exact hx
      · rw [process_new_file_eq_dispatch env st p now h1 h2 h3]
        exact dispatchProcess_fs_superset env st.fs p (classify p) x hx hne
    · rw [process_new_file_eq_incomplete env st p now h1 (complete_false_of_ne_true h2)]
      exact hx
  · rw [process_new_file_eq_not_exist env st p now h1]
    exact hx

/- ### C9: stable file with a disabled category -/

/-- C9: when a tracked path is re-evaluated, found stable, and its (non-Other)
category is disabled in the freshly loaded settings, `process_new_file` removes the
entry from the tracked map and returns before placement: the queue entry is gone,
no move is attempted, and the filesystem is unchanged. -/
theorem c9_stable_disabled_removal (env : Env) (st : St) (p : String) (now : Nat)
    (hfs : p ∈ st.fs) (hc : env.complete p = true)
    (hcat : classify p ≠ "Other")
    (hdis : getFileTypeEnabled (load_settings env.disk).1 (classify p) = false) :
    (process_new_file env st p now).st.pending = eraseKey st.pending p ∧
    p ∉ keysOf (process_new_file env st p now).st.pending ∧
    (process_new_file env st p now).st.fs = st.fs ∧
    (process_new_file env st p now).attempt = none ∧
    (process_new_file env st p now).moved = false := by
  rw [process_new_file_eq_gate env st p now hfs hc ⟨hcat, hdis⟩]
  exact ⟨rfl, eraseKey_key_not_mem st.pending p, rfl, rfl, rfl⟩

/-- Witness for C9: a stable tracked `a.pdf` under PDF-disabled settings is dropped
from the queue and left in place. -/
theorem c9_stable_disabled_removal_witness :
    (process_new_file envC9 { fs := ["~/Downloads/a.pdf"], pending := [("~/Downloads/a.pdf", 0)] }
        "~/Downloads/a.pdf" 99).st.pending = [] ∧
    (process_new_file envC9 { fs := ["~/Downloads/a.pdf"], pending := [("~/Downloads/a.pdf", 0)] }
        "~/Downloads/a.pdf" 99).st.fs = ["~/Downloads/a.pdf"] ∧
    (process_new_file envC9 { fs := ["~/Downloads/a.pdf"], pending := [("~/Downloads/a.pdf", 0)] }
        "~/Downloads/a.pdf" 99).attempt = none := by
  have h := c9_stable_disabled_removal envC9
    { fs := ["~/Downloads/a.pdf"], pending := [("~/Downloads/a.pdf", 0)] }
    "~/Downloads/a.pdf" 99 (by decide) (by decide) (by decide) (by decide)
  exact ⟨h.1.trans (by decide), h.2.2.1, h.2.2.2.1⟩

/- ### C1: the category gate and the pending queue -/

/-- C1 counterexample: the stability check runs before the category gate, so an
arrival event for an unstable file whose category is disabled DOES create a Pending
Queue entry — refuting "never enters the Pending Queue". Here `a.pdf` has category
PDF, PDF is disabled in the loaded settings, the file is unstable at arrival, and
after the event the tracked map contains the entry. -/
theorem c1_gate_pending_counterexample :
    classify "~/Downloads/a.pdf" = "PDF" ∧
    getFileTypeEnabled (load_settings envC1.disk).1 "PDF" = false ∧
    (process_new_file envC1 { fs := ["~/Downloads/a.pdf"], pending := [] }
        "~/Downloads/a.pdf" 5).st.pending = [("~/Downloads/a.pdf", 5)] ∧
    (process_new_file envC1 { fs := ["~/Downloads/a.pdf"], pending := [] }
        "~/Downloads/a.pdf" 5).moved = false := by
  refine ⟨by decide, by decide, by decide, by decide⟩

/-- C1 amended: a file whose (non-Other) category is disabled is never moved by
arrival handling — no move is attempted, the filesystem is unchanged, and this
holds across arbitrarily repeated arrival events. If the file is stable at the
arrival, no queue entry survives (any existing entry is removed); but if the file
is unstable at the arrival, an entry IS created in the Pending Queue (the gate is
only checked after the stability check), contrary to the original claim. -/
theorem c1_gate_amended (env : Env) (st : St) (p : String) (now : Nat)
    (hcat : classify p ≠ "Other")
    (hdis : getFileTypeEnabled (load_settings env.disk).1 (classify p) = false) :
    (process_new_file env st p now).moved = false ∧
    (process_new_file env st p now).attempt = none ∧
    (process_new_file env st p now).st.fs = st.fs ∧
    (∀ k st0, (arrivalIter env p now k st0).fs = st0.fs) ∧
    (p ∈ st.fs → env.complete p = true →
      p ∉ keysOf (process_new_file env st p now).st.pending) ∧
    (p ∈ st.fs → env.complete p = false →
      (p, now) ∈ (process_new_file env st p now).st.pending) := by
  have hshape : ∀ st1 : St,
      (process_new_file env st1 p now).moved = false ∧
      (process_new_file env st1 p now).attempt = none ∧
      (process_new_file env st1 p now).st.fs = st1.fs := by
    intro st1
    by_cases h1 : p ∈ st1.fs
    · by_cases h2 : env.complete p = true
      · rw [process_new_file_eq_gate env st1 p now h1 h2 ⟨hcat, hdis⟩]
        exact ⟨rfl, rfl, rfl⟩
      · rw [process_new_file_eq_incomplete env st1 p now h1 (complete_false_of_ne_true h2)]
        exact ⟨rfl, rfl, rfl⟩
    · rw [process_new_file_eq_not_exist env st1 p now h1]
      exact ⟨rfl, rfl, rfl⟩
  refine ⟨(hshape st).1, (hshape st).2.1, (hshape st).2.2, ?_, ?_, ?_⟩
  · intro k
    induction k with
    | zero => intro st0; rfl
    | succ m ih =>
      intro st0
      show (arrivalIter env p now m (process_new_file env st0 p now).st).fs = st0.fs
      rw [ih (process_new_file env st0 p now).st, (hshape st0).2.2]
  · intro hfs hc
    rw [process_new_file_pending_of_complete env st p now hfs hc]
    exact eraseKey_key_not_mem st.pending p
  · intro hfs hc
    rw [process_new_file_eq_incomplete env st p now hfs hc]
    exact setKey_mem st.pending p now

/-- Witness for C1 (amended) at the unstable-arrival environment. -/
theorem c1_gate_amended_witness :
    (process_new_file envC1 { fs := ["~/Downloads/a.pdf"], pending := [] }
        "~/Downloads/a.pdf" 5).moved = false ∧
    ("~/Downloads/a.pdf", 5) ∈
      (process_new_file envC1 { fs := ["~/Downloads/a.pdf"], pending := [] }
        "~/Downloads/a.pdf" 5).st.pending := by
  have h := c1_gate_amended envC1 { fs := ["~/Downloads/a.pdf"], pending := [] }
    "~/Downloads/a.pdf" 5 (by decide) (by decide)
  exact ⟨h.1, h.2.2.2.2.2 (by decide) (by decide)⟩

/- ### C2: empty excerpt versus keyword-service failure -/

/-- C2 counterexample: with an empty PDF excerpt, placement is skipped entirely
(no move is attempted, the file stays where it is); with a non-empty excerpt and a
failing keyword service (empty keyword list), placement runs and the file is moved
with its original base name. The two outcomes differ, refuting "the pipeline treats
them identically and placement still runs in both cases". -/
theorem c2_empty_excerpt_counterexample :
    (process_new_file envC2a { fs := ["~/Downloads/doc.pdf"], pending := [] }
        "~/Downloads/doc.pdf" 0).attempt = none ∧
    (process_new_file envC2a { fs := ["~/Downloads/doc.pdf"], pending := [] }
        "~/Downloads/doc.pdf" 0).st.fs = ["~/Downloads/doc.pdf"] ∧
    extract_keywords (envC2b.service "sample text") = [] ∧
    (process_new_file envC2b { fs := ["~/Downloads/doc.pdf"], pending := [] }
        "~/Downloads/doc.pdf" 0).attempt = some "~/Downloads/PDF/doc.pdf" ∧
    (process_new_file envC2b { fs := ["~/Downloads/doc.pdf"], pending := [] }
        "~/Downloads/doc.pdf" 0).st.fs = ["~/Downloads/PDF/doc.pdf"] := by
  refine ⟨by decide, by decide, by decide, by decide, by decide⟩

/-- C2 amended: an empty excerpt is a terminal "no text extracted" outcome for PDF
and Code files — placement is skipped and the file is left in place — whereas a
keyword-service failure on a non-empty excerpt yields the empty keyword list and
placement still runs, with the original base name preserved. The two cases are NOT
treated identically. -/
theorem c2_empty_excerpt_amended (env : Env) (fs : List String) (p : String) :
    (env.pdfText p = "" →
      process_pdf env fs p = { fs := fs, attempt := none, moved := false, net := false }) ∧
    (env.pdfText p ≠ "" → env.service (env.pdfText p) = none →
      (process_pdf env fs p).attempt = some (resolvePath fs
        (if (load_settings env.disk).1.organize_folders then pathJoin DOWNLOADS_FOLDER "PDF"
          else DOWNLOADS_FOLDER)
        (splitext (basename p)).1 (splitext (basename p)).2)) ∧
    (env.codeText p = "" →
      process_code env fs p = { fs := fs, attempt := none, moved := false, net := false }) ∧
    (env.codeText p ≠ "" → env.service (env.codeText p) = none →
      (process_code env fs p).attempt = some (resolvePath fs
        (if (load_settings env.disk).1.organize_folders then pathJoin DOWNLOADS_FOLDER "Code"
          else DOWNLOADS_FOLDER)
        (splitext (basename p)).1 (splitext (basename p)).2)) := by
  have hkey : ∀ (cat : String) (text : String), text ≠ "" → env.service text = none →
      (process_with_keywords env fs p cat text).attempt =
        some (resolvePath fs
          (if (load_settings env.disk).1.organize_folders then pathJoin DOWNLOADS_FOLDER cat
            else DOWNLOADS_FOLDER)
          (splitext (basename p)).1 (splitext (basename p)).2) := by
    intro cat text ht hserv
    simp only [process_with_keywords]
    rw [if_pos ht, hserv]
    show some (rename_and_sort_file env fs p cat (extract_keywords none)).dest = _
    rw [show extract_keywords none = [] from rfl, rename_dest]
    simp
  have hempty : ∀ (cat : String) (text : String), text = "" →
      process_with_keywords env fs p cat text
        = { fs := fs, attempt := none, moved := false, net := false } := by
    intro cat text ht
    simp only [process_with_keywords]
    rw [if_neg (by simp [ht])]
  exact ⟨fun h => hempty "PDF" _ h, fun h hs => hkey "PDF" _ h hs,
    fun h => hempty "Code" _ h, fun h hs => hkey "Code" _ h hs⟩

/-- Witness for C2 (amended) at the two concrete environments. -/
theorem c2_empty_excerpt_amended_witness :
    process_pdf envC2a ["~/Downloads/doc.pdf"] "~/Downloads/doc.pdf"
      = { fs := ["~/Downloads/doc.pdf"], attempt := none, moved := false, net := false } ∧
    (process_pdf envC2b ["~/Downloads/doc.pdf"] "~/Downloads/doc.pdf").attempt
      = some "~/Downloads/PDF/doc.pdf" := by
  have ha := (c2_empty_excerpt_amended envC2a ["~/Downloads/doc.pdf"] "~/Downloads/doc.pdf").1 rfl
  have hb := (c2_empty_excerpt_amended envC2b ["~/Downloads/doc.pdf"] "~/Downloads/doc.pdf").2.1
    (by decide) rfl
  exact ⟨ha, hb.trans (by decide)⟩


/- ### C4: the pending-queue sweep -/

lemma mem_keysOf (m : List (String × Nat)) (q : String) :
    q ∈ keysOf m ↔ ∃ v, (q, v) ∈ m := by
  unfold keysOf
  rw [List.mem_map]
  constructor
  · rintro ⟨e, he, rfl⟩
    exact ⟨e.2, he⟩
  · rintro ⟨v, hv⟩
    exact ⟨(q, v), hv, rfl⟩

lemma keysOf_val_unique (m : List (String × Nat)) (hnd : (keysOf m).Nodup)
    (p : String) (a b : Nat) (h1 : (p, a) ∈ m) (h2 : (p, b) ∈ m) : a = b := by
  induction m with
  | nil => simp at h1
  | cons e t ih =>
    have hnd2 : e.1 ∉ keysOf t ∧ (keysOf t).Nodup := by
      have : keysOf (e :: t) = e.1 :: keysOf t := rfl
      rw [this, List.nodup_cons] at hnd
      exact hnd
    rcases List.mem_cons.mp h1 with ha | ha <;> rcases List.mem_cons.mp h2 with hb | hb
    · simpa using ha.trans hb.symm
    · exfalso
      apply hnd2.1
      rw [← ha]
      exact (mem_keysOf t p).mpr ⟨b, hb⟩
    · exfalso
      apply hnd2.1
      rw [← hb]
      exact (mem_keysOf t p).mpr ⟨a, ha⟩
    · exact ih hnd2.2 ha hb

lemma mem_filtered_keys_iff (m : List (String × Nat)) (hnd : (keysOf m).Nodup)
    (pr : String × Nat → Prop) [DecidablePred pr] (p : String) (ts : Nat)
    (hmem : (p, ts) ∈ m) :
    (p ∈ (m.filter (fun e => decide (pr e))).map (fun e => e.1)) ↔ pr (p, ts) := by
  constructor
  · intro h
    rw [List.mem_map] at h
    obtain ⟨e, he, hep⟩ := h
    rw [List.mem_filter] at he
    have he2 : e = (p, e.2) := by
      rw [← hep]
    have hts : e.2 = ts :=
      keysOf_val_unique m hnd p e.2 ts (he2 ▸ he.1) hmem
    have : e = (p, ts) := by rw [he2, hts]
    rw [this] at he
    simpa using he.2
  · intro h
    rw [List.mem_map]
    exact ⟨(p, ts), List.mem_filter.mpr ⟨hmem, by simpa using h⟩, rfl⟩

lemma mem_sweepProcessList_iff (env : Env) (st : St) (now : Nat)
    (hnd : (keysOf st.pending).Nodup) (p : String) (ts : Nat) (hmem : (p, ts) ∈ st.pending) :
    p ∈ sweepProcessList env st now ↔
      (now - ts > 60 ∧ p ∈ st.fs ∧ env.complete p = true) :=
  mem_filtered_keys_iff st.pending hnd _ p ts hmem

lemma mem_sweepRemoveList_iff (env : Env) (st : St) (now : Nat)
    (hnd : (keysOf st.pending).Nodup) (p : String) (ts : Nat) (hmem : (p, ts) ∈ st.pending) :
    p ∈ sweepRemoveList env st now ↔ (now - ts > 60 ∧ p ∉ st.fs) :=
  mem_filtered_keys_iff st.pending hnd _ p ts hmem

lemma mem_sweepTestedList_iff (env : Env) (st : St) (now : Nat)
    (hnd : (keysOf st.pending).Nodup) (p : String) (ts : Nat) (hmem : (p, ts) ∈ st.pending) :
    p ∈ sweepTestedList env st now ↔ (now - ts > 60 ∧ p ∈ st.fs) :=
  mem_filtered_keys_iff st.pending hnd _ p ts hmem

lemma sweepPending2_mem_keep (env : Env) (st : St) (now : Nat)
    (hnd : (keysOf st.pending).Nodup) (p : String) (ts : Nat) (hmem : (p, ts) ∈ st.pending)
    (hnoref : ¬(now - ts > 60 ∧ p ∈ st.fs ∧ env.complete p = false))
    (hnorem : ¬(now - ts > 60 ∧ p ∉ st.fs)) :
    (p, ts) ∈ sweepPending2 env st now := by
  unfold sweepPending2
  rw [List.mem_filter]
  constructor
  · rw [List.mem_map]
    refine ⟨(p, ts), hmem, ?_⟩
    rw [if_neg hnoref]
  · simp only [decide_eq_true_eq]
    intro hrem
    exact hnorem ((mem_sweepRemoveList_iff env st now hnd p ts hmem).mp hrem)

lemma sweepPending2_mem_refresh (env : Env) (st : St) (now : Nat)
    (hnd : (keysOf st.pending).Nodup) (p : String) (ts : Nat) (hmem : (p, ts) ∈ st.pending)
    (href : now - ts > 60 ∧ p ∈ st.fs ∧ env.complete p = false) :
    (p, now) ∈ sweepPending2 env st now := by
  unfold sweepPending2
  rw [List.mem_filter]
  constructor
  · rw [List.mem_map]
    refine ⟨(p, ts), hmem, ?_⟩
    rw [if_pos href]
  · simp only [decide_eq_true_eq]
    intro hrem
    exact ((mem_sweepRemoveList_iff env st now hnd p ts hmem).mp hrem).2 href.2.1

lemma sweepPending2_key_not_mem_removed (env : Env) (st : St) (now : Nat)
    (hnd : (keysOf st.pending).Nodup) (p : String) (ts : Nat) (hmem : (p, ts) ∈ st.pending)
    (hrem : now - ts > 60 ∧ p ∉ st.fs) :
    p ∉ keysOf (sweepPending2 env st now) := by
  rw [mem_keysOf]
  rintro ⟨v, hv⟩
  unfold sweepPending2 at hv
  rw [List.mem_filter] at hv
  obtain ⟨hv1, hv2⟩ := hv
  simp only [decide_eq_true_eq] at hv2
  exact hv2 ((mem_sweepRemoveList_iff env st now hnd p ts hmem).mpr hrem)

lemma keysOf_map_refresh (env : Env) (st : St) (now : Nat) :
    keysOf (st.pending.map
      (fun e =>
        if now - e.2 > 60 ∧ e.1 ∈ st.fs ∧ env.complete e.1 = false then (e.1, now) else e))
      = keysOf st.pending := by
  unfold keysOf
  rw [List.map_map]
  apply List.map_congr_left
  intro e _
  show (if now - e.2 > 60 ∧ e.1 ∈ st.fs ∧ env.complete e.1 = false then (e.1, now) else e).1 = e.1
  split
  · rfl
  · rfl

lemma keysOf_filter_sublist (m : List (String × Nat)) (q : String × Nat → Bool) :
    List.Sublist (keysOf (m.filter q)) (keysOf m) := by
  unfold keysOf
  exact List.Sublist.map (fun e => e.1) (List.filter_sublist m)

lemma sweepPending2_keys_nodup (env : Env) (st : St) (now : Nat)
    (hnd : (keysOf st.pending).Nodup) : (keysOf (sweepPending2 env st now)).Nodup := by
  unfold sweepPending2
  apply List.Nodup.sublist (keysOf_filter_sublist _ _)
  rw [keysOf_map_refresh]
  exact hnd

lemma sweepProcessList_nodup (env : Env) (st : St) (now : Nat)
    (hnd : (keysOf st.pending).Nodup) : (sweepProcessList env st now).Nodup := by
  unfold sweepProcessList
  exact List.Nodup.sublist (keysOf_filter_sublist st.pending _) hnd

lemma sweepProcessList_props (env : Env) (st : St) (now : Nat) (q : String)
    (hq : q ∈ sweepProcessList env st now) : q ∈ st.fs ∧ env.complete q = true := by
  unfold sweepProcessList at hq
  rw [List.mem_map] at hq
  obtain ⟨e, he, rfl⟩ := hq
  rw [List.mem_filter] at he
  have := he.2
  simp only [decide_eq_true_eq] at this
  exact ⟨this.2.1, this.2.2⟩

lemma sweepFold_pending_other (env : Env) (now : Nat) :
    ∀ (Q : List String) (st1 : St) (acc : List Ev),
      Q.Nodup → (∀ q ∈ Q, q ∈ st1.fs ∧ env.complete q = true) →
      ∀ x : String × Nat, x.1 ∉ Q →
        (x ∈ (sweepFold env now Q (st1, acc)).1.pending ↔ x ∈ st1.pending) := by
  intro Q
  induction Q with
  | nil => intro st1 acc _ _ x _; exact Iff.rfl
  | cons q Q2 ih =>
    intro st1 acc hnd hQ x hx
    have hq := hQ q (List.mem_cons_self q Q2)
    have hnd2 := (List.nodup_cons.mp hnd).2
    have hqQ2 := (List.nodup_cons.mp hnd).1
    have hstep : ∀ q2 ∈ Q2, q2 ∈ (process_new_file env st1 q now).st.fs ∧
        env.complete q2 = true := by
      intro q2 hq2
      refine ⟨process_new_file_fs_superset env st1 q now q2 (hQ q2 (List.mem_cons_of_mem _ hq2)).1
        ?_, (hQ q2 (List.mem_cons_of_mem _ hq2)).2⟩
      intro he
      exact hqQ2 (he ▸ hq2)
    have hxq : x.1 ≠ q := fun he => hx (he ▸ List.mem_cons_self q Q2)
    have hxQ2 : x.1 ∉ Q2 := fun hin => hx (List.mem_cons_of_mem _ hin)
    calc x ∈ (sweepFold env now (q :: Q2) (st1, acc)).1.pending
        ↔ x ∈ (sweepFold env now Q2 ((process_new_file env st1 q now).st,
            acc ++ (process_new_file env st1 q now).trace)).1.pending := Iff.rfl
      _ ↔ x ∈ (process_new_file env st1 q now).st.pending :=
          ih (process_new_file env st1 q now).st _ hnd2 hstep x hxQ2
      _ ↔ x ∈ st1.pending := process_new_file_pending_other env st1 q now x hxq

lemma sweepFold_key_not_mem (env : Env) (now : Nat) :
    ∀ (Q : List String) (st1 : St) (acc : List Ev),
      Q.Nodup → (∀ q ∈ Q, q ∈ st1.fs ∧ env.complete q = true) →
      ∀ q ∈ Q, q ∉ keysOf (sweepFold env now Q (st1, acc)).1.pending := by
  intro Q
  induction Q with
  | nil => intro st1 acc _ _ q hq; simp at hq
  | cons q0 Q2 ih =>
    intro st1 acc hnd hQ q hq
    have hq0 := hQ q0 (List.mem_cons_self q0 Q2)
    have hnd2 := (List.nodup_cons.mp hnd).2
    have hq0Q2 := (List.nodup_cons.mp hnd).1
    have hstep : ∀ q2 ∈ Q2, q2 ∈ (process_new_file env st1 q0 now).st.fs ∧
        env.complete q2 = true := by
      intro q2 hq2
      refine ⟨process_new_file_fs_superset env st1 q0 now q2
        (hQ q2 (List.mem_cons_of_mem _ hq2)).1 ?_, (hQ q2 (List.mem_cons_of_mem _ hq2)).2⟩
      intro he
      exact hq0Q2 (he ▸ hq2)
    rcases List.mem_cons.mp hq with hq0eq | hqQ2
    · subst hq0eq
      rw [mem_keysOf]
      rintro ⟨v, hv⟩
      have hv2 : (q, v) ∈ (process_new_file env st1 q now).st.pending := by
        have := sweepFold_pending_other env now Q2 (process_new_file env st1 q now).st
          (acc ++ (process_new_file env st1 q now).trace) hnd2 hstep (q, v) hq0Q2
        exact this.mp hv
      rw [process_new_file_pending_of_complete env st1 q now hq0.1 hq0.2] at hv2
      unfold eraseKey at hv2
      rw [List.mem_filter] at hv2
      simp at hv2
    · exact ih (process_new_file env st1 q0 now).st _ hnd2 hstep q hqQ2

lemma check_pending_st_eq (env : Env) (st : St) (now : Nat) :
    (check_pending_downloads env st now).st =
      (sweepFold env now (sweepProcessList env st now)
        ({ fs := st.fs, pending := sweepPending2 env st now }, [])).1 := rfl

/-- C4: one sweep re-tests exactly the tracked entries older than the 60-second
grace period whose file still exists. Per entry (with distinct tracked keys): a
young entry is left unchanged, untested and unprocessed; an old entry whose file
vanished is removed silently and not processed; an old entry still unstable has
its timestamp refreshed to the sweep time and stays pending; an old entry now
stable is run through the full pipeline and its entry is removed — for every
environment, hence regardless of the outcome of placement (`moveOk` is arbitrary,
so this covers failed moves). -/
theorem c4_sweep_behavior (env : Env) (st : St) (now : Nat) (p : String) (ts : Nat)
    (hnd : (keysOf st.pending).Nodup) (hmem : (p, ts) ∈ st.pending) :
    (¬(now - ts > 60) →
      (p, ts) ∈ (check_pending_downloads env st now).st.pending ∧
      p ∉ (check_pending_downloads env st now).processed ∧
      p ∉ (check_pending_downloads env st now).tested) ∧
    (now - ts > 60 → p ∉ st.fs →
      p ∉ keysOf (check_pending_downloads env st now).st.pending ∧
      p ∉ (check_pending_downloads env st now).processed) ∧
    (now - ts > 60 → p ∈ st.fs → env.complete p = false →
      (p, now) ∈ (check_pending_downloads env st now).st.pending ∧
      p ∉ (check_pending_downloads env st now).processed ∧
      p ∈ (check_pending_downloads env st now).tested) ∧
    (now - ts > 60 → p ∈ st.fs → env.complete p = true →
      p ∈ (check_pending_downloads env st now).processed ∧
      p ∉ keysOf (check_pending_downloads env st now).st.pending) ∧
    (p ∈ (check_pending_downloads env st now).tested ↔ (now - ts > 60 ∧ p ∈ st.fs)) ∧
    (p ∈ (check_pending_downloads env st now).processed ↔
      (now - ts > 60 ∧ p ∈ st.fs ∧ env.complete p = true)) := by
  have hproc_iff : p ∈ (check_pending_downloads env st now).processed ↔
      (now - ts > 60 ∧ p ∈ st.fs ∧ env.complete p = true) :=
    mem_sweepProcessList_iff env st now hnd p ts hmem
  have htest_iff : p ∈ (check_pending_downloads env st now).tested ↔
      (now - ts > 60 ∧ p ∈ st.fs) :=
    mem_sweepTestedList_iff env st now hnd p ts hmem
  have hQnd := sweepProcessList_nodup env st now hnd
  have hQprops : ∀ q ∈ sweepProcessList env st now,
      q ∈ (St.mk st.fs (sweepPending2 env st now)).fs ∧ env.complete q = true :=
    fun q hq => sweepProcessList_props env st now q hq
  refine ⟨?_, ?_, ?_, ?_, htest_iff, hproc_iff⟩
  · intro hyoung
    have hnotQ : p ∉ sweepProcessList env st now := by
      rw [show (check_pending_downloads env st now).processed = sweepProcessList env st now
        from rfl] at hproc_iff
      intro hin
      exact hyoung (hproc_iff.mp hin).1
    refine ⟨?_, fun hin => hyoung (hproc_iff.mp hin).1,
      fun hin => hyoung (htest_iff.mp hin).1⟩
    rw [check_pending_st_eq]
    rw [sweepFold_pending_other env now (sweepProcessList env st now) _ [] hQnd hQprops
      (p, ts) hnotQ]
    exact sweepPending2_mem_keep env st now hnd p ts hmem
      (fun hcon => hyoung hcon.1) (fun hcon => hyoung hcon.1)
  · intro hold hnex
    have hnotQ : p ∉ sweepProcessList env st now := by
      intro hin
      exact hnex ((mem_sweepProcessList_iff env st now hnd p ts hmem).mp hin).2.1
    refine ⟨?_, fun hin => hnex (hproc_iff.mp hin).2.1⟩
    rw [check_pending_st_eq, mem_keysOf]
    rintro ⟨v, hv⟩
    rw [sweepFold_pending_other env now (sweepProcessList env st now) _ [] hQnd hQprops
      (p, v) hnotQ] at hv
    exact sweepPending2_key_not_mem_removed env st now hnd p ts hmem ⟨hold, hnex⟩
      ((mem_keysOf _ p).mpr ⟨v, hv⟩)
  · intro hold hex hincomp
    have hnotQ : p ∉ sweepProcessList env st now := by
      intro hin
      have := ((mem_sweepProcessList_iff env st now hnd p ts hmem).mp hin).2.2
      rw [hincomp] at this
      exact Bool.false_ne_true this
    refine ⟨?_, fun hin => ?_, htest_iff.mpr ⟨hold, hex⟩⟩
    · rw [check_pending_st_eq]
      rw [sweepFold_pending_other env now (sweepProcessList env st now) _ [] hQnd hQprops
        (p, now) hnotQ]
      exact sweepPending2_mem_refresh env st now hnd p ts hmem ⟨hold, hex, hincomp⟩
    · have := (hproc_iff.mp hin).2.2
      rw [hincomp] at this
      exact Bool.false_ne_true this
  · intro hold hex hcomp
    have hinQ : p ∈ sweepProcessList env st now :=
      (mem_sweepProcessList_iff env st now hnd p ts hmem).mpr ⟨hold, hex, hcomp⟩
    refine ⟨hinQ, ?_⟩
    rw [check_pending_st_eq]
    exact sweepFold_key_not_mem env now (sweepProcessList env st now) _ [] hQnd hQprops p hinQ

/-- Witness for C4 at a concrete four-entry sweep: the young entry survives
unchanged, the vanished entry is gone, the still-unstable entry is refreshed to the
sweep time, and the stable entry is processed and removed. -/
theorem c4_sweep_behavior_witness :
    ("sweep/young.zip", 90) ∈ (check_pending_downloads envC4 stC4 100).st.pending ∧
    "sweep/gone.zip" ∉ keysOf (check_pending_downloads envC4 stC4 100).st.pending ∧
    ("sweep/slow.zip", 100) ∈ (check_pending_downloads envC4 stC4 100).st.pending ∧
    "sweep/stable.zip" ∈ (check_pending_downloads envC4 stC4 100).processed ∧
    "sweep/stable.zip" ∉ keysOf (check_pending_downloads envC4 stC4 100).st.pending := by
  have hy := c4_sweep_behavior envC4 stC4 100 "sweep/young.zip" 90 (by decide) (by decide)
  have hg := c4_sweep_behavior envC4 stC4 100 "sweep/gone.zip" 0 (by decide) (by decide)
  have hs := c4_sweep_behavior envC4 stC4 100 "sweep/slow.zip" 0 (by decide) (by decide)
  have ht := c4_sweep_behavior envC4 stC4 100 "sweep/stable.zip" 0 (by decide) (by decide)
  exact ⟨(hy.1 (by decide)).1,
    (hg.2.1 (by decide) (by decide)).1,
    (hs.2.2.1 (by decide) (by decide) (by decide)).1,
    (ht.2.2.2.1 (by decide) (by decide) (by decide)).1,
    (ht.2.2.2.1 (by decide) (by decide) (by decide)).2⟩


/- ### C10: lock scoping of the tracked-paths map -/

lemma evDepth_append (a b : List Ev) (d : Nat) :
    evDepth (a ++ b) d = evDepth b (evDepth a d) := by
  induction a generalizing d with
  | nil => rfl
  | cons e t ih => cases e <;> simp [evDepth, ih]

lemma badNet_append (a b : List Ev) (d : Nat) :
    badNet (a ++ b) d = (badNet a d || badNet b (evDepth a d)) := by
  induction a generalizing d with
  | nil => rfl
  | cons e t ih => cases e <;> simp [badNet, evDepth, ih, Bool.or_assoc]

lemma badMap_append (a b : List Ev) (d : Nat) :
    badMap (a ++ b) d = (badMap a d || badMap b (evDepth a d)) := by
  induction a generalizing d with
  | nil => rfl
  | cons e t ih => cases e <;> simp [badMap, evDepth, ih, Bool.or_assoc]

lemma chkUnder_append (a b : List Ev) (d : Nat) :
    chkUnder (a ++ b) d = (chkUnder a d || chkUnder b (evDepth a d)) := by
  induction a generalizing d with
  | nil => rfl
  | cons e t ih => cases e <;> simp [chkUnder, evDepth, ih, Bool.or_assoc]

lemma sweepEntryEvents_mem (env : Env) (fs0 : List String) (now : Nat)
    (e : String × Nat) (x : Ev) (hx : x ∈ sweepEntryEvents env fs0 now e) :
    (∃ q, x = Ev.chk q) ∨ x = Ev.mapop := by
  unfold sweepEntryEvents at hx
  split at hx
  · split at hx
    · rcases List.mem_cons.mp hx with h | h
      · exact Or.inl ⟨e.1, h⟩
      · right
        revert h
        split
        · intro h; simpa using h
        · intro h; simp at h
    · simp at hx
  · simp at hx

lemma sweepEvs_mem (env : Env) (st : St) (now : Nat) (x : Ev)
    (hx : x ∈ sweepEvs env st now) : (∃ q, x = Ev.chk q) ∨ x = Ev.mapop := by
  unfold sweepEvs at hx
  rcases List.mem_append.mp hx with h | h
  · rw [List.mem_flatten] at h
    obtain ⟨l, hl, hxl⟩ := h
    rw [List.mem_map] at hl
    obtain ⟨e, _, rfl⟩ := hl
    exact sweepEntryEvents_mem env st.fs now e x hxl
  · right
    rw [List.mem_map] at h
    obtain ⟨_, _, h2⟩ := h
    exact h2.symm

lemma noLockEvents_facts (l : List Ev)
    (h : ∀ x ∈ l, (∃ q, x = Ev.chk q) ∨ x = Ev.mapop) :
    ∀ d, evDepth l d = d ∧ badNet l d = false ∧ (0 < d → badMap l d = false) := by
  induction l with
  | nil => intro d; exact ⟨rfl, rfl, fun _ => rfl⟩
  | cons e t ih =>
    intro d
    have ht := ih (fun x hx => h x (List.mem_cons_of_mem _ hx)) d
    rcases h e (List.mem_cons_self e t) with ⟨q, rfl⟩ | rfl
    · exact ⟨ht.1, ht.2.1, fun hd => ht.2.2 hd⟩
    · refine ⟨ht.1, ht.2.1, fun hd => ?_⟩
      show (decide (d = 0) || badMap t d) = false
      rw [ht.2.2 hd]
      simp
      omega

lemma chkUnder_of_mem (l : List Ev)
    (hno : ∀ x ∈ l, (∃ r, x = Ev.chk r) ∨ x = Ev.mapop)
    (q : String) (hq : Ev.chk q ∈ l) : ∀ d, 0 < d → chkUnder l d = true := by
  induction l with
  | nil => simp at hq
  | cons e t ih =>
    intro d hd
    have hno2 : ∀ x ∈ t, (∃ r, x = Ev.chk r) ∨ x = Ev.mapop :=
      fun x hx => hno x (List.mem_cons_of_mem _ hx)
    rcases List.mem_cons.mp hq with he | hmem
    · rw [← he]
      show (decide (0 < d) || chkUnder t d) = true
      simp [hd]
    · rcases hno e (List.mem_cons_self e t) with ⟨r, rfl⟩ | rfl
      · show (decide (0 < d) || chkUnder t d) = true
        rw [ih hno2 hmem d hd]
        simp
      · exact ih hno2 hmem d hd

lemma process_trace_facts (env : Env) (st : St) (p : String) (now : Nat) :
    evDepth (process_new_file env st p now).trace 0 = 0 ∧
    badNet (process_new_file env st p now).trace 0 = false ∧
    badMap (process_new_file env st p now).trace 0 = false := by
  by_cases h1 : p ∈ st.fs
  · by_cases h2 : env.complete p = true
    · by_cases h3 : classify p ≠ "Other" ∧
          getFileTypeEnabled (load_settings env.disk).1 (classify p) = false
      · rw [process_new_file_eq_gate env st p now h1 h2 h3]
        exact ⟨rfl, rfl, rfl⟩
      · rw [process_new_file_eq_dispatch env st p now h1 h2 h3]
        cases hnet : (dispatchProcess env st.fs p (classify p)).net
        · exact ⟨rfl, rfl, rfl⟩
        · exact ⟨rfl, rfl, rfl⟩
    · rw [process_new_file_eq_incomplete env st p now h1 (complete_false_of_ne_true h2)]
      exact ⟨rfl, rfl, rfl⟩
  · rw [process_new_file_eq_not_exist env st p now h1]
    exact ⟨rfl, rfl, rfl⟩

lemma sweepFold_trace_facts (env : Env) (now : Nat) :
    ∀ (Q : List String) (st1 : St) (acc : List Ev),
      evDepth acc 0 = 0 → badNet acc 0 = false → badMap acc 0 = false →
      evDepth (sweepFold env now Q (st1, acc)).2 0 = 0 ∧
      badNet (sweepFold env now Q (st1, acc)).2 0 = false ∧
      badMap (sweepFold env now Q (st1, acc)).2 0 = false := by
  intro Q
  induction Q with
  | nil => intro st1 acc h1 h2 h3; exact ⟨h1, h2, h3⟩
  | cons q Q2 ih =>
    intro st1 acc h1 h2 h3
    have hp := process_trace_facts env st1 q now
    refine ih (process_new_file env st1 q now).st _ ?_ ?_ ?_
    · rw [evDepth_append, h1, hp.1]
    · rw [badNet_append, h2, h1, hp.2.1]
      rfl
    · rw [badMap_append, h3, h1, hp.2.2]
      rfl

lemma check_trace_eq (env : Env) (st : St) (now : Nat) :
    (check_pending_downloads env st now).trace =
      Ev.acq :: (sweepEvs env st now ++ Ev.rel ::
        (sweepFold env now (sweepProcessList env st now)
          ({ fs := st.fs, pending := sweepPending2 env st now }, [])).2) := rfl

/-- C10 counterexample: a sweep over one old, existing, still-unstable entry emits
the trace acquire–check–mapop–release: the blocking stability check happens while
the lock is held, refuting "the lock is acquired only for the duration of the map
operation, never across the blocking stability check". -/
theorem c10_lock_counterexample :
    (check_pending_downloads envC10
        { fs := ["~/Downloads/a.pdf"], pending := [("~/Downloads/a.pdf", 0)] } 100).trace =
      [Ev.acq, Ev.chk "~/Downloads/a.pdf", Ev.mapop, Ev.rel] ∧
    chkUnder [Ev.acq, Ev.chk "~/Downloads/a.pdf", Ev.mapop, Ev.rel] 0 = true := by
  refine ⟨by decide, by decide⟩

/-- C10 amended: the tracked-paths map is indeed lock-protected — every map
operation of the sweep and of arrival handling happens with the lock held, and the
network call is never made under the lock (processing runs after the sweep releases
it) — but the sweep performs its per-entry stability checks while holding the
lock: whenever an entry older than the grace period still exists, the trace
contains a stability check under the lock. -/
theorem c10_lock_amended :
    (∀ (env : Env) (st : St) (now : Nat),
      badNet (check_pending_downloads env st now).trace 0 = false ∧
      badMap (check_pending_downloads env st now).trace 0 = false) ∧
    (∀ (env : Env) (st : St) (p : String) (now : Nat),
      badNet (process_new_file env st p now).trace 0 = false ∧
      badMap (process_new_file env st p now).trace 0 = false) ∧
    (∀ (env : Env) (st : St) (now : Nat) (p : String) (ts : Nat),
      (p, ts) ∈ st.pending → now - ts > 60 → p ∈ st.fs →
      chkUnder (check_pending_downloads env st now).trace 0 = true) := by
  refine ⟨?_, ?_, ?_⟩
  · intro env st now
    have hsw := noLockEvents_facts (sweepEvs env st now) (sweepEvs_mem env st now) 1
    have hfold := sweepFold_trace_facts env now (sweepProcessList env st now)
      { fs := st.fs, pending := sweepPending2 env st now } [] rfl rfl rfl
    rw [check_trace_eq]
    constructor
    · show badNet (sweepEvs env st now ++ Ev.rel :: (sweepFold env now _ _).2) 1 = false
      rw [badNet_append, hsw.2.1, hsw.1]
      show (false || badNet (sweepFold env now _ _).2 0) = false
      rw [hfold.2.1]
      rfl
    · show badMap (sweepEvs env st now ++ Ev.rel :: (sweepFold env now _ _).2) 1 = false
      rw [badMap_append, hsw.2.2 (by omega), hsw.1]
      show (false || badMap (sweepFold env now _ _).2 0) = false
      rw [hfold.2.2]
      rfl
  · intro env st p now
    exact ⟨(process_trace_facts env st p now).2.1, (process_trace_facts env st p now).2.2⟩
  · intro env st now p ts hmem hold hex
    have hchk : Ev.chk p ∈ sweepEvs env st now := by
      unfold sweepEvs
      apply List.mem_append.mpr
      left
      rw [List.mem_flatten]
      refine ⟨sweepEntryEvents env st.fs now (p, ts), ?_, ?_⟩
      · rw [List.mem_map]
        exact ⟨(p, ts), hmem, rfl⟩
      · unfold sweepEntryEvents
        rw [if_pos hold, if_pos hex]
        exact List.mem_cons_self _ _
    rw [check_trace_eq]
    show chkUnder (sweepEvs env st now ++ Ev.rel :: (sweepFold env now _ _).2) 1 = true
    rw [chkUnder_append,
      chkUnder_of_mem (sweepEvs env st now) (sweepEvs_mem env st now) p hchk 1 (by omega)]
    rfl

/-- Witness for C10 (amended): at the concrete one-entry sweep the map operations
are under the lock, the network call is not, and the stability check is performed
under the lock. -/
theorem c10_lock_amended_witness :
    badNet (check_pending_downloads envC10
      { fs := ["~/Downloads/a.pdf"], pending := [("~/Downloads/a.pdf", 0)] } 100).trace 0
        = false ∧
    badMap (check_pending_downloads envC10
      { fs := ["~/Downloads/a.pdf"], pending := [("~/Downloads/a.pdf", 0)] } 100).trace 0
        = false ∧
    chkUnder (check_pending_downloads envC10
      { fs := ["~/Downloads/a.pdf"], pending := [("~/Downloads/a.pdf", 0)] } 100).trace 0
        = true := by
  have h1 := c10_lock_amended.1 envC10
    { fs := ["~/Downloads/a.pdf"], pending := [("~/Downloads/a.pdf", 0)] } 100
  have h3 := c10_lock_amended.2.2 envC10
    { fs := ["~/Downloads/a.pdf"], pending := [("~/Downloads/a.pdf", 0)] } 100
    "~/Downloads/a.pdf" 0 (by decide) (by decide) (by decide)
  exact ⟨h1.1, h1.2, h3⟩

end DlOrg
